import Mathlib

/-!
Verification of `logging_ext.handlers` (DateBasedFileHandler and
ConcurrentDateBasedFileHandler): a shallow embedding of the handler's
pattern-to-regex translation, filename formatting, rollover decision,
retention sweep and emit error handling, together with proofs of the
specified properties.

Strings are modelled as `List Char`.  Machine-level collaborators
(`re`, `str.replace`, `datetime.strftime`, the filesystem) are embedded
at the level of their documented observable behaviour on the inputs the
handler produces.
-/

namespace LoggingExt

/-! ## Python `re.escape` (Python 3.7+ semantics)

`re.escape` prefixes a backslash to exactly the characters in its
special-character map; all other characters pass through unchanged. -/

/-- The characters `re.escape` escapes (Python 3.7+ special-chars map). -/
def pySpecialChars : List Char :=
  ['(', ')', '[', ']', '{', '}', '?', '*', '+', '-', '|', '^', '$',
   '\\', '.', '&', '~', '#', ' ', '\t', '\n', '\r', '\x0b', '\x0c']

/-- Escape one character the way `re.escape` does. -/
def reEscapeChar (c : Char) : List Char :=
  if pySpecialChars.contains c then ['\\', c] else [c]

/-- `re.escape` over a whole string. -/
def reEscape (s : List Char) : List Char :=
  s.flatMap reEscapeChar

/-! ## Python `str.replace`

Left-to-right, non-overlapping replacement of every occurrence of a
needle.  Implemented with explicit fuel (one unit per character of the
scanned string) so the kernel can evaluate it. -/

def replaceFuel (needle repl : List Char) : Nat → List Char → List Char
  | _, [] => []
  | 0, s => s
  | fuel + 1, c :: rest =>
    if needle.isPrefixOf (c :: rest) then
      repl ++ replaceFuel needle repl fuel (List.drop (needle.length - 1) rest)
    else
      c :: replaceFuel needle repl fuel rest

/-- Python `s.replace(needle, repl)` (for the nonempty needles used here). -/
def pyReplace (s needle repl : List Char) : List Char :=
  replaceFuel needle repl s.length s

/-! ## The strftime-code to regex-fragment table

This is the `replacements` dict of
`DateBasedFileHandler._convert_pattern_to_regex`, in its (insertion)
iteration order. -/

def replacements : List (List Char × List Char) :=
  [ ("%Y".data, "\\d{4}".data),
    ("%y".data, "\\d{2}".data),
    ("%m".data, "\\d{2}".data),
    ("%d".data, "\\d{2}".data),
    ("%H".data, "\\d{2}".data),
    ("%I".data, "\\d{2}".data),
    ("%M".data, "\\d{2}".data),
    ("%S".data, "\\d{2}".data),
    ("%j".data, "\\d{3}".data),
    ("%U".data, "\\d{2}".data),
    ("%W".data, "\\d{2}".data),
    ("%a".data, "\\w{3}".data),
    ("%A".data, "\\w+".data),
    ("%b".data, "\\w{3}".data),
    ("%B".data, "\\w+".data),
    ("%p".data, "(AM|PM)".data) ]

/-- `DateBasedFileHandler._convert_pattern_to_regex`: escape the whole
pattern with `re.escape`, then apply the replacement table entries in
order with `str.replace` (needle escaped with `re.escape` as in the
source), and anchor the result at both ends. -/
def convertPatternToRegex (pattern : List Char) : List Char :=
  let escaped := reEscape pattern
  let replaced := replacements.foldl (fun acc kv => pyReplace acc (reEscape kv.1) kv.2) escaped
  '^' :: (replaced ++ ['$'])

/-! ## The instant type and `strftime`

`datetime.datetime.now()` is modelled as a record of the calendar
fields `strftime` reads.  Derived fields (weekday, day of year, week
numbers, ISO year and week, microseconds, the epoch offset) are
carried as fields constrained by `DateTime.Valid` rather than
recomputed.  The directive table is that of the `strftime` the handler
delegates to — CPython's `datetime.strftime` over glibc in the C
locale, on a naive `datetime.now()` value: every single-character
directive that platform expands is in the table with its observed
expansion.  In particular `%Y` is not zero-padded (year 5 formats as
`5`), `%z` and `%Z` expand to the empty string for a naive datetime,
and `%f` is expanded by CPython itself.  A `%` pair whose second
character is outside the table and outside the flag/modifier lead-ins
is printed literally, glibc's behaviour for unsupported directives. -/

structure DateTime where
  year : Nat
  month : Nat
  day : Nat
  hour : Nat
  minute : Nat
  second : Nat
  weekday : Nat
  yday : Nat
  weekU : Nat
  weekW : Nat
  microsecond : Nat
  isoYear : Nat
  isoWeek : Nat
  epoch : Int
deriving DecidableEq, Repr

/-- Field ranges of a value producible by `datetime.datetime.now()`
(Python's `datetime` has `MINYEAR = 1`, `MAXYEAR = 9999`;
`weekday()` is 0‥6 with Monday = 0). -/
def DateTime.Valid (t : DateTime) : Prop :=
  1 ≤ t.year ∧ t.year ≤ 9999 ∧ 1 ≤ t.month ∧ t.month ≤ 12 ∧
  1 ≤ t.day ∧ t.day ≤ 31 ∧ t.hour ≤ 23 ∧ t.minute ≤ 59 ∧
  t.second ≤ 61 ∧ t.weekday ≤ 6 ∧ 1 ≤ t.yday ∧ t.yday ≤ 366 ∧
  t.weekU ≤ 53 ∧ t.weekW ≤ 53 ∧ t.microsecond ≤ 999999 ∧
  t.isoYear ≤ 9999 ∧ 1 ≤ t.isoWeek ∧ t.isoWeek ≤ 53

instance (t : DateTime) : Decidable t.Valid := by
  unfold DateTime.Valid; infer_instance

/-- Decimal digits of `n`, most significant first (fuelled for kernel
evaluation; `natDigits 0 = "0"`). -/
def natDigitsAux : Nat → Nat → List Char → List Char
  | 0, _, acc => acc
  | fuel + 1, n, acc =>
    if n < 10 then Nat.digitChar n :: acc
    else natDigitsAux fuel (n / 10) (Nat.digitChar (n % 10) :: acc)

def natDigits (n : Nat) : List Char :=
  natDigitsAux (n + 1) n []

/-- Zero-padded decimal of width at least `w` (the `%0wd` padding the
platform `strftime` applies to numeric directives). -/
def pad (w n : Nat) : List Char :=
  List.replicate (w - (natDigits n).length) '0' ++ natDigits n

/-- Space-padded decimal of width at least `w` (glibc `%e`, `%k`,
`%l`). -/
def spacePad (w n : Nat) : List Char :=
  List.replicate (w - (natDigits n).length) ' ' ++ natDigits n

/-- Signed decimal of an integer (glibc `%s`, negative for instants
before the epoch). -/
def intDigits (i : Int) : List Char :=
  if i < 0 then '-' :: natDigits i.natAbs else natDigits i.natAbs

/-- 12-hour clock value of an hour (for `%I`). -/
def hour12 (h : Nat) : Nat :=
  if h % 12 = 0 then 12 else h % 12

def dayAbbrTable : List (List Char) :=
  ["Mon".data, "Tue".data, "Wed".data, "Thu".data, "Fri".data, "Sat".data, "Sun".data]

def dayFullTable : List (List Char) :=
  ["Monday".data, "Tuesday".data, "Wednesday".data, "Thursday".data,
   "Friday".data, "Saturday".data, "Sunday".data]

def monAbbrTable : List (List Char) :=
  ["Jan".data, "Feb".data, "Mar".data, "Apr".data, "May".data, "Jun".data,
   "Jul".data, "Aug".data, "Sep".data, "Oct".data, "Nov".data, "Dec".data]

def monFullTable : List (List Char) :=
  ["January".data, "February".data, "March".data, "April".data, "May".data,
   "June".data, "July".data, "August".data, "September".data, "October".data,
   "November".data, "December".data]

def dayAbbr (w : Nat) : List Char := dayAbbrTable.getD w []

def dayFull (w : Nat) : List Char := dayFullTable.getD w []

def monAbbr (m : Nat) : List Char := monAbbrTable.getD (m - 1) []

def monFull (m : Nat) : List Char := monFullTable.getD (m - 1) []

/-- The single-character directives the platform `strftime` expands
(CPython over glibc, C locale, naive datetime), paired with their
observed expansion functions.  The first sixteen keys and `%%` are the
directives the handler's conversion table also knows; the rest are
expanded during filename generation although `_convert_pattern_to_regex`
leaves them literal.  Note `%Y`, `%G` and `%C` are unpadded, `%e`,
`%k`, `%l` are space-padded, and `%z`/`%Z` are empty on the naive
`datetime.now()` value the handler formats. -/
def strfTable : List (Char × (DateTime → List Char)) :=
  [ ('Y', fun t => natDigits t.year),
    ('y', fun t => pad 2 (t.year % 100)),
    ('m', fun t => pad 2 t.month),
    ('d', fun t => pad 2 t.day),
    ('H', fun t => pad 2 t.hour),
    ('I', fun t => pad 2 (hour12 t.hour)),
    ('M', fun t => pad 2 t.minute),
    ('S', fun t => pad 2 t.second),
    ('j', fun t => pad 3 t.yday),
    ('U', fun t => pad 2 t.weekU),
    ('W', fun t => pad 2 t.weekW),
    ('a', fun t => dayAbbr t.weekday),
    ('A', fun t => dayFull t.weekday),
    ('b', fun t => monAbbr t.month),
    ('B', fun t => monFull t.month),
    ('p', fun t => if t.hour < 12 then "AM".data else "PM".data),
    ('%', fun _ => ['%']),
    ('c', fun t => dayAbbr t.weekday ++ ' ' :: (monAbbr t.month ++ ' ' ::
      (spacePad 2 t.day ++ ' ' :: (pad 2 t.hour ++ ':' :: (pad 2 t.minute ++
        ':' :: (pad 2 t.second ++ ' ' :: natDigits t.year)))))),
    ('C', fun t => natDigits (t.year / 100)),
    ('D', fun t => pad 2 t.month ++ '/' :: (pad 2 t.day ++ '/' :: pad 2 (t.year % 100))),
    ('e', fun t => spacePad 2 t.day),
    ('f', fun t => pad 6 t.microsecond),
    ('F', fun t => natDigits t.year ++ '-' :: (pad 2 t.month ++ '-' :: pad 2 t.day)),
    ('g', fun t => pad 2 (t.isoYear % 100)),
    ('G', fun t => natDigits t.isoYear),
    ('h', fun t => monAbbr t.month),
    ('k', fun t => spacePad 2 t.hour),
    ('l', fun t => spacePad 2 (hour12 t.hour)),
    ('n', fun _ => ['\n']),
    ('P', fun t => if t.hour < 12 then "am".data else "pm".data),
    ('r', fun t => pad 2 (hour12 t.hour) ++ ':' :: (pad 2 t.minute ++ ':' ::
      (pad 2 t.second ++ ' ' :: (if t.hour < 12 then "AM".data else "PM".data)))),
    ('R', fun t => pad 2 t.hour ++ ':' :: pad 2 t.minute),
    ('s', fun t => intDigits t.epoch),
    ('t', fun _ => ['\t']),
    ('T', fun t => pad 2 t.hour ++ ':' :: (pad 2 t.minute ++ ':' :: pad 2 t.second)),
    ('u', fun t => natDigits (t.weekday + 1)),
    ('V', fun t => pad 2 t.isoWeek),
    ('w', fun t => natDigits ((t.weekday + 1) % 7)),
    ('x', fun t => pad 2 t.month ++ '/' :: (pad 2 t.day ++ '/' :: pad 2 (t.year % 100))),
    ('X', fun t => pad 2 t.hour ++ ':' :: (pad 2 t.minute ++ ':' :: pad 2 t.second)),
    ('z', fun _ => []),
    ('Z', fun _ => []) ]

/-- The keys of `strfTable`: the single-character directives the
platform expands. -/
def strfKnownChars : List Char :=
  ['Y', 'y', 'm', 'd', 'H', 'I', 'M', 'S', 'j', 'U', 'W', 'a', 'A', 'b', 'B',
   'p', '%', 'c', 'C', 'D', 'e', 'f', 'F', 'g', 'G', 'h', 'k', 'l', 'n', 'P',
   'r', 'R', 's', 't', 'T', 'u', 'V', 'w', 'x', 'X', 'z', 'Z']

/-- Characters the platform `strftime` treats as the start of a longer
directive when they follow `%`: the `E`/`O` alternative-format
modifiers, the `-`, `_`, `^`, `#` and zero-padding flags and the
field-width digits, all of which consume further format characters
(observed: `%Ey` gives `05`, `%-d` gives `3`, `%4Y` gives `0005`,
`%^a` gives `THU`).  The embedding models single-character directives
only, so well-formed unknown tokens exclude these lead-ins. -/
def strfModifierChars : List Char :=
  ['E', 'O', '-', '_', '^', '#', '0', '1', '2', '3', '4', '5', '6', '7', '8', '9']

/-- All characters with a non-literal meaning directly after `%`: a
character outside this list is passed through (the platform prints the
unsupported directive as its two literal characters). -/
def strfActiveChars : List Char := strfKnownChars ++ strfModifierChars

/-- Expansion of one `%c` directive: table lookup; a directive unknown
to the platform is passed through as its two literal characters.  (The
pass-through branch is the platform's behaviour only for characters
outside `strfActiveChars`; flag and modifier lead-ins start
multi-character directives the embedding does not model, and
well-formedness of token lists excludes them.) -/
def strfCode (c : Char) (t : DateTime) : List Char :=
  match strfTable.find? (fun kv => kv.1 == c) with
  | some kv => kv.2 t
  | none => ['%', c]

/-- `strftime`: scan the format, expanding `%c` pairs and copying all
other characters. -/
def strfRun (t : DateTime) : List Char → List Char
  | [] => []
  | c :: rest =>
    if c = '%' then
      match rest with
      | [] => ['%']
      | c2 :: rest2 => strfCode c2 t ++ strfRun t rest2
    else
      c :: strfRun t rest

/-- `DateBasedFileHandler._get_current_filename`:
`datetime.datetime.now().strftime(self.filename_pattern)` with the
instant made explicit. -/
def getCurrentFilename (pattern : List Char) (now : DateTime) : List Char :=
  strfRun now pattern

/-- `DateBasedFileHandler._should_rollover`: the freshly formatted name
compared (Python `!=`) against `self.current_filename`
(`Optional[str]`, initially `None`). -/
def shouldRollover (pattern : List Char) (currentFilename : Option (List Char))
    (now : DateTime) : Bool :=
  match currentFilename with
  | none => true
  | some s => decide (getCurrentFilename pattern now ≠ s)

/-! ## The compiled matcher

The regex string produced by `convertPatternToRegex` is interpreted by
parsing it into an item list and running a backtracking matcher.  The
grammar covers exactly what the conversion can emit: plain and
backslash-escaped literals, the classes `\d`/`\w` with an optional
`{n}` or `+` quantifier, and groups of literal alternatives.  Matching
follows `re.match` with the pattern's `^`/`$` anchors: a name matches
when the whole of it is consumed, where `$` also accepts a single
trailing newline (Python `$` semantics). -/

inductive CCls
  | digit
  | word
deriving DecidableEq, Repr

inductive RItem
  | lit (c : Char)
  | cls (k : CCls) (n : Nat)
  | clsPlus (k : CCls)
  | altLits (alts : List (List Char))
deriving DecidableEq, Repr

def readNat (s : List Char) : Nat :=
  s.foldl (fun n c => n * 10 + (c.toNat - 48)) 0

/-- Characters that are regex metacharacters for the item grammar: a
bare occurrence outside an escape is not a plain literal. -/
def metaChars : List Char :=
  ['\\', '(', ')', '|', '^', '$', '*', '+', '?', '[', ']', '{', '}', '.']

/-- Parse an optional `{n}` / `+` quantifier after `\d` or `\w`. -/
def parseQuant (k : CCls) (s : List Char) : Option (RItem × List Char) :=
  match s with
  | '{' :: r2 =>
    match r2.drop (r2.takeWhile Char.isDigit).length with
    | '}' :: r3 =>
      if r2.takeWhile Char.isDigit = [] then none
      else some (RItem.cls k (readNat (r2.takeWhile Char.isDigit)), r3)
    | _ => none
  | '+' :: r2 => some (RItem.clsPlus k, r2)
  | _ => some (RItem.cls k 1, s)

/-- Parse the inside of a group of literal alternatives, up to the
closing parenthesis.  `cur` is the current alternative reversed,
`alts` the finished alternatives reversed. -/
def parseGroupFuel : Nat → List Char → List Char → List (List Char) →
    Option (List (List Char) × List Char)
  | 0, _, _, _ => none
  | _ + 1, [], _, _ => none
  | fuel + 1, c :: rest, cur, alts =>
    if c = ')' then some ((cur.reverse :: alts).reverse, rest)
    else if c = '|' then parseGroupFuel fuel rest [] (cur.reverse :: alts)
    else if c = '\\' then
      match rest with
      | c2 :: r2 => parseGroupFuel fuel r2 (c2 :: cur) alts
      | [] => none
    else if metaChars.contains c then none
    else parseGroupFuel fuel rest (c :: cur) alts

/-- Parse a regex body that must terminate with the `$` anchor. -/
def parseItemsFuel : Nat → List Char → Option (List RItem)
  | 0, _ => none
  | _ + 1, [] => none
  | fuel + 1, c :: rest =>
    if c = '$' then
      match rest with
      | [] => some []
      | _ => none
    else if c = '\\' then
      match rest with
      | [] => none
      | c2 :: r2 =>
        if c2 = 'd' ∨ c2 = 'w' then
          match parseQuant (if c2 = 'd' then CCls.digit else CCls.word) r2 with
          | none => none
          | some ir => (parseItemsFuel fuel ir.2).map (ir.1 :: ·)
        else
          (parseItemsFuel fuel r2).map (RItem.lit c2 :: ·)
    else if c = '(' then
      match parseGroupFuel fuel rest [] [] with
      | none => none
      | some gr => (parseItemsFuel fuel gr.2).map (RItem.altLits gr.1 :: ·)
    else if metaChars.contains c then none
    else
      (parseItemsFuel fuel rest).map (RItem.lit c :: ·)

def parseItems (s : List Char) : Option (List RItem) :=
  parseItemsFuel (s.length + 1) s

/-- The handler's compiled pattern (`self._file_pattern_regex`,
interpreted): strip the leading `^` anchor and parse the body up to the
`$` anchor. -/
def compiledItems (pattern : List Char) : Option (List RItem) :=
  match convertPatternToRegex pattern with
  | '^' :: rest => parseItems rest
  | _ => none

def inCls : CCls → Char → Bool
  | .digit, c => c.isDigit
  | .word, c => c.isAlphanum || c == '_'

/-- Consume exactly `n` characters of class `k`. -/
def consumeN (k : CCls) : Nat → List Char → Option (List Char)
  | 0, s => some s
  | _ + 1, [] => none
  | n + 1, c :: rest => if inCls k c then consumeN k n rest else none

/-- All suffixes reachable by consuming one or more characters of class
`k` (the backtracking choices of `+`). -/
def plusSuffixes (k : CCls) : List Char → List (List Char)
  | [] => []
  | c :: rest => if inCls k c then rest :: plusSuffixes k rest else []

/-- All suffixes left after one item matches a prefix of `s`. -/
def matchItem : RItem → List Char → List (List Char)
  | .lit c, s =>
    match s with
    | [] => []
    | c2 :: rest => if c2 = c then [rest] else []
  | .cls k n, s =>
    match consumeN k n s with
    | some r => [r]
    | none => []
  | .clsPlus k, s => plusSuffixes k s
  | .altLits alts, s =>
    alts.filterMap (fun a => if a.isPrefixOf s then some (s.drop a.length) else none)

/-- All suffixes left after an item sequence matches a prefix of `s`. -/
def matchSeq : List RItem → List Char → List (List Char)
  | [], s => [s]
  | i :: is, s => (matchItem i s).flatMap (matchSeq is)

/-- Full anchored match: some backtracking path consumes the whole name
(`$` also accepts one trailing newline, as in Python). -/
def pyFullMatch (its : List RItem) (name : List Char) : Bool :=
  (matchSeq its name).any (fun r => decide (r = [] ∨ r = ['\n']))

/-- `re.match(self._file_pattern_regex, name) is not None`. -/
def matchesName (pattern name : List Char) : Bool :=
  match compiledItems pattern with
  | some its => pyFullMatch its name
  | none => false

/-! ## Patterns as token lists

For the quantified round-trip and pass-through properties a pattern is
presented as a list of tokens: literal characters, placeholders the
conversion table recognizes, and `%x` directives outside the table.
`renderPattern` recovers the concrete pattern string the handler is
constructed with; nothing below is proved about token lists except via
their rendering. -/

inductive PHolder
  | Y | y | m | d | H | I | M | S | j | U | W | a | A | b | B | p
deriving DecidableEq, Repr

instance : Fintype PHolder :=
  ⟨⟨{.Y, .y, .m, .d, .H, .I, .M, .S, .j, .U, .W, .a, .A, .b, .B, .p}, by decide⟩,
    fun x => by cases x <;> decide⟩

def PHolder.char : PHolder → Char
  | .Y => 'Y' | .y => 'y' | .m => 'm' | .d => 'd' | .H => 'H' | .I => 'I'
  | .M => 'M' | .S => 'S' | .j => 'j' | .U => 'U' | .W => 'W' | .a => 'a'
  | .A => 'A' | .b => 'b' | .B => 'B' | .p => 'p'

/-- The regex fragment the conversion table substitutes for a
placeholder. -/
def fragOf : PHolder → List Char
  | .Y => "\\d{4}".data
  | .y => "\\d{2}".data
  | .m => "\\d{2}".data
  | .d => "\\d{2}".data
  | .H => "\\d{2}".data
  | .I => "\\d{2}".data
  | .M => "\\d{2}".data
  | .S => "\\d{2}".data
  | .j => "\\d{3}".data
  | .U => "\\d{2}".data
  | .W => "\\d{2}".data
  | .a => "\\w{3}".data
  | .A => "\\w+".data
  | .b => "\\w{3}".data
  | .B => "\\w+".data
  | .p => "(AM|PM)".data

/-- The table keys in their dict iteration order. -/
def allPHolders : List PHolder :=
  [.Y, .y, .m, .d, .H, .I, .M, .S, .j, .U, .W, .a, .A, .b, .B, .p]

/-- The placeholder characters the conversion table recognizes. -/
def recognizedChars : List Char :=
  ['Y', 'y', 'm', 'd', 'H', 'I', 'M', 'S', 'j', 'U', 'W', 'a', 'A', 'b', 'B', 'p']

inductive Tok
  | lit (c : Char)
  | ph (p : PHolder)
  | unk (c : Char)
deriving DecidableEq, Repr

def Tok.render : Tok → List Char
  | .lit c => [c]
  | .ph p => ['%', p.char]
  | .unk c => ['%', c]

/-- The pattern string denoted by a token list. -/
def renderPattern (P : List Tok) : List Char :=
  P.flatMap Tok.render

/-- Well-formedness: a literal is not the directive lead-in, and an
unknown directive is unknown both to the handler's conversion table
and to the platform `strftime` — outside the expansion table and the
flag/modifier lead-ins, so the platform really does pass it through
literally. -/
def Tok.WF : Tok → Prop
  | .lit c => c ≠ '%'
  | .ph _ => True
  | .unk c => c ≠ '%' ∧ c ∉ recognizedChars ∧ c ∉ strfActiveChars

instance (t : Tok) : Decidable t.WF := by
  cases t <;> (unfold Tok.WF; infer_instance)

/-- Whether a token is built from literal text and recognized
placeholders only. -/
def Tok.plain : Tok → Prop
  | .unk _ => False
  | _ => True

instance (t : Tok) : Decidable t.plain := by
  cases t <;> (unfold Tok.plain; infer_instance)

/-- The state of one token of the pattern while the replacement table
is being folded over the escaped pattern: placeholders already
processed carry their fragment, the rest their escaped spelling. -/
def midTok (done : List PHolder) : Tok → List Char
  | .lit c => reEscapeChar c
  | .ph p => if p ∈ done then fragOf p else ['%', p.char]
  | .unk c => '%' :: reEscapeChar c

/-- The regex items the compiled pattern holds for one token. -/
def itemsTok : Tok → List RItem
  | .lit c => [RItem.lit c]
  | .ph p =>
    match p with
    | .Y => [RItem.cls .digit 4]
    | .y => [RItem.cls .digit 2]
    | .m => [RItem.cls .digit 2]
    | .d => [RItem.cls .digit 2]
    | .H => [RItem.cls .digit 2]
    | .I => [RItem.cls .digit 2]
    | .M => [RItem.cls .digit 2]
    | .S => [RItem.cls .digit 2]
    | .j => [RItem.cls .digit 3]
    | .U => [RItem.cls .digit 2]
    | .W => [RItem.cls .digit 2]
    | .a => [RItem.cls .word 3]
    | .A => [RItem.clsPlus .word]
    | .b => [RItem.cls .word 3]
    | .B => [RItem.clsPlus .word]
    | .p => [RItem.altLits ["AM".data, "PM".data]]
  | .unk c => [RItem.lit '%', RItem.lit c]

/-- What `strftime` produces for one token. -/
def tokFmt (tok : Tok) (t : DateTime) : List Char :=
  match tok with
  | .lit c => [c]
  | .ph p => strfCode p.char t
  | .unk c => ['%', c]

/-! ## Directory entries and the retention sweep

A directory is a list of entries (name, modification time, regular-file
flag).  `_get_matching_files` filters to regular files whose name
matches the compiled pattern and sorts by modification time, newest
first (`list.sort` is modelled by the stable `insertionSort`);
`_cleanup_old_files` unlinks everything after the first
`backup_count + 1` entries of that ranking. -/

structure FileEntry where
  name : List Char
  mtime : Nat
  isFile : Bool
deriving DecidableEq, Repr

/-- The sort order of `_get_matching_files`: newest first. -/
def mtimeGe (a b : FileEntry) : Prop := b.mtime ≤ a.mtime

instance : DecidableRel mtimeGe :=
  fun a b => inferInstanceAs (Decidable (b.mtime ≤ a.mtime))

instance : IsTotal FileEntry mtimeGe :=
  ⟨fun a b => (Nat.le_total a.mtime b.mtime).symm⟩

instance : IsTrans FileEntry mtimeGe :=
  ⟨fun _ _ _ h1 h2 => Nat.le_trans h2 h1⟩

/-- The filter of `_get_matching_files`:
`file.is_file() and re.match(self._file_pattern_regex, file.name)`. -/
def isMatchingFile (pattern : List Char) (f : FileEntry) : Bool :=
  f.isFile && matchesName pattern f.name

/-- `DateBasedFileHandler._get_matching_files` on a directory listing. -/
def getMatchingFiles (pattern : List Char) (dir : List FileEntry) : List FileEntry :=
  List.insertionSort mtimeGe (dir.filter (isMatchingFile pattern))

/-- `DateBasedFileHandler._cleanup_old_files`: with a positive
`backup_count`, unlink every matching file after the first
`backup_count + 1` in the newest-first ranking; the result is the
directory after the deletions. -/
def cleanupOldFiles (backupCount : Nat) (pattern : List Char)
    (dir : List FileEntry) : List FileEntry :=
  if backupCount ≤ 0 then dir
  else
    let toDelete := (getMatchingFiles pattern dir).drop (backupCount + 1)
    dir.filter (fun f => !(toDelete.any (fun g => g.name == f.name)))

/-- `__init__` stores `max(0, backup_count)`. -/
def effectiveBackupCount (backupCount : Int) : Nat :=
  (max 0 backupCount).toNat

/-! ## The emit path

The mutable handler attributes and the outcomes of the fallible
platform calls an `emit` performs.  Each sub-operation returns the
exception it lets escape (`none` when it returns normally), the updated
handler state, and the `handleError` reports it issued; this mirrors
the `try`/`except` structure of the source line by line.  The effect of
deletions on the directory is covered by the pure sweep model above;
here cleanup only contributes its control flow. -/

inductive PyExc
  | osError
  | otherError
deriving DecidableEq, Repr

/-- The distinct `handleError` call sites. -/
inductive Report
  | openFailed
  | cleanupFailed
  | emitFailed
deriving DecidableEq, Repr

structure HandlerState where
  filenamePattern : List Char
  backupCount : Nat
  currentFilename : Option (List Char)
  baseFilename : List Char
  stream : Option (List Char)
  lockFilename : Option (List Char)
  lockFile : Bool
deriving DecidableEq, Repr

/-- Outcomes of the platform calls one `emit` may perform (`none` =
the call returns normally). -/
structure EmitEnv where
  now : DateTime
  mkdirResult : Option PyExc
  openResult : Option PyExc
  dirListing : Option (List FileEntry)
  unlinkResult : List Char → Option PyExc
  writeResult : Option PyExc
  lockOpenResult : Option PyExc
  flockResult : Option PyExc

/-- `_close_stream`: close errors are swallowed and the stream is
cleared in the `finally`. -/
def closeStream (st : HandlerState) : HandlerState :=
  { st with stream := none }

/-- `_open_current_file`: `mkdir` runs outside any `try` and its
exception escapes; the `open` failure is caught and reported, leaving
the stream absent. -/
def openCurrentFileM (env : EmitEnv) (st : HandlerState) :
    Option PyExc × HandlerState × List Report :=
  let current := getCurrentFilename st.filenamePattern env.now
  match env.mkdirResult with
  | some e => (some e, st, [])
  | none =>
    let st1 := closeStream st
    let st2 := { st1 with baseFilename := current, currentFilename := some current }
    match env.openResult with
    | none => (none, { st2 with stream := some current }, [])
    | some _ => (none, st2, [Report.openFailed])

/-- `_get_matching_files` inside emit: any listing failure is caught by
its own `try` and yields the empty list. -/
def getMatchingFilesM (env : EmitEnv) (st : HandlerState) : List FileEntry :=
  match env.dirListing with
  | none => []
  | some entries => getMatchingFiles st.filenamePattern entries

/-- `_cleanup_old_files` control flow: an `unlink` raising
`OSError`/`IOError` is swallowed by the inner `except`; any other
exception reaches the outer `except` and is reported.  Never lets an
exception escape. -/
def cleanupOldFilesM (env : EmitEnv) (st : HandlerState) : List Report :=
  if st.backupCount ≤ 0 then []
  else
    let toDelete := (getMatchingFilesM env st).drop (st.backupCount + 1)
    if toDelete.any (fun f => env.unlinkResult f.name == some PyExc.otherError) then
      [Report.cleanupFailed]
    else []

/-- The second half of `emit`'s `try` body: reopen if no stream is
open, then write when a stream is available.  Returns (escaped
exception, state, reports, whether the record was written). -/
def emitWrite (env : EmitEnv) (st : HandlerState) (reps : List Report) :
    Option PyExc × HandlerState × List Report × Bool :=
  match st.stream with
  | none =>
    match openCurrentFileM env st with
    | (some e, st1, rep1) => (some e, st1, reps ++ rep1, false)
    | (none, st1, rep1) =>
      match st1.stream with
      | none => (none, st1, reps ++ rep1, false)
      | some _ =>
        match env.writeResult with
        | some e => (some e, st1, reps ++ rep1, false)
        | none => (none, st1, reps ++ rep1, true)
  | some _ =>
    match env.writeResult with
    | some e => (some e, st, reps, false)
    | none => (none, st, reps, true)

/-- The whole `try` body of `DateBasedFileHandler.emit`. -/
def emitBody (env : EmitEnv) (st : HandlerState) :
    Option PyExc × HandlerState × List Report × Bool :=
  if shouldRollover st.filenamePattern st.currentFilename env.now then
    match openCurrentFileM env st with
    | (some e, st1, rep1) => (some e, st1, rep1, false)
    | (none, st1, rep1) =>
      let rep2 := if st1.backupCount > 0 then cleanupOldFilesM env st1 else []
      emitWrite env st1 (rep1 ++ rep2)
  else
    emitWrite env st []

/-- `DateBasedFileHandler.emit`: the catch-all `except` turns any
escaped exception into `handleError(record)`. -/
def emitM (env : EmitEnv) (st : HandlerState) :
    Option PyExc × HandlerState × List Report × Bool :=
  match emitBody env st with
  | (some _, st1, reps, _) => (none, st1, reps ++ [Report.emitFailed], false)
  | (none, st1, reps, wrote) => (none, st1, reps, wrote)

/-! ## The cross-process lock -/

/-- `pathlib` final path component (after the last `/`). -/
def pyName (p : List Char) : List Char :=
  (p.reverse.takeWhile (fun c => c ≠ '/')).reverse

/-- `pathlib.PurePath.stem`: the final component minus its last suffix;
a suffix exists only when the last dot is at an index `i` with
`0 < i < len - 1`. -/
def pyStem (p : List Char) : List Char :=
  let n := pyName p
  match n.reverse.findIdx? (fun c => c == '.') with
  | none => n
  | some j =>
    let i := n.length - 1 - j
    if 0 < i ∧ i < n.length - 1 then n.take i else n

/-- First half of `_acquire_lock`: on the first call, derive the lock
path from `Path(self.filename_pattern).stem` plus `.lock`. -/
def setLockFilename (st : HandlerState) : HandlerState :=
  if st.lockFilename = none then
    { st with lockFilename := some (pyStem st.filenamePattern ++ ".lock".data) }
  else st

/-- `_acquire_lock`: compute the lock path from the pattern's stem the
first time, then best-effort open the lock file (open failure leaves
`_lock_file = None`; `flock` failures are swallowed). -/
def acquireLockM (env : EmitEnv) (st : HandlerState) : HandlerState :=
  match env.lockOpenResult with
  | some _ => { setLockFilename st with lockFile := false }
  | none => { setLockFilename st with lockFile := true }

/-- `_release_lock`: unlock/close errors are swallowed; the handle is
cleared in the `finally`. -/
def releaseLockM (st : HandlerState) : HandlerState :=
  { st with lockFile := false }

/-- `ConcurrentDateBasedFileHandler.emit`: acquire, emit, release in a
`finally`. -/
def concurrentEmitM (env : EmitEnv) (st : HandlerState) :
    Option PyExc × HandlerState × List Report × Bool :=
  match emitM env (acquireLockM env st) with
  | (exc, st2, reps, wrote) => (exc, releaseLockM st2, reps, wrote)

/-- The attribute state of a freshly constructed
`ConcurrentDateBasedFileHandler` (with `delay=True`, so no stream has
been opened yet): `_lock_filename` starts as `None` and
`current_filename` as `None`. -/
def initialConcurrentState (pattern : List Char) (backupCount : Int) : HandlerState :=
  { filenamePattern := pattern
    backupCount := effectiveBackupCount backupCount
    currentFilename := none
    baseFilename := []
    stream := none
    lockFilename := none
    lockFile := false }

/-! ## Construction and directory creation

A filesystem is the list of existing directories.  `open` in append
mode fails when the target's directory portion does not exist; it never
creates directories. -/

/-- Directory portion of a path: up to the last `/` (exclusive), or
`.` when the path has no directory part. -/
def dirName (p : List Char) : List Char :=
  let n := pyName p
  if n.length = p.length then ['.'] else p.take (p.length - n.length - 1)

/-- `open(path, "a")` at the filesystem level: fails with
`FileNotFoundError` when the parent directory is missing. -/
def openAppend (fs : List (List Char)) (fname : List Char) : Option PyExc :=
  if dirName fname = ['.'] ∨ fs.contains (dirName fname) then none
  else some PyExc.osError

/-- Modelled from the spec: the `logging.FileHandler` base-class
construction that `DateBasedFileHandler.__init__` delegates to is not
part of `src/`; per the spec, construction-time errors fail loudly
(§7) and directories are created only during the emit-time switch
(§4.3).  With `delay=False` the base class opens
`_get_current_filename()` immediately, creating no directories; with
`delay=True` it opens nothing.  Returns ((escaped exception, opened
stream), filesystem after construction). -/
def dateBasedInit (pattern : List Char) (delay : Bool) (now : DateTime)
    (fs : List (List Char)) :
    (Option PyExc × Option (List Char)) × List (List Char) :=
  let fname := getCurrentFilename pattern now
  if delay then ((none, none), fs)
  else
    match openAppend fs fname with
    | none => ((none, some fname), fs)
    | some e => ((some e, none), fs)

/-- `mkdir(parents=True, exist_ok=True)` on the directory portion. -/
def mkdirParents (d : List Char) (fs : List (List Char)) : List (List Char) :=
  if d = ['.'] ∨ fs.contains d then fs else d :: fs

/-- `_open_current_file` at the filesystem level:
`parent.mkdir(parents=True, exist_ok=True)` first, then open. -/
def openCurrentFileFS (pattern : List Char) (now : DateTime)
    (fs : List (List Char)) : Option (List Char) × List (List Char) :=
  match openAppend (mkdirParents (dirName (getCurrentFilename pattern now)) fs)
      (getCurrentFilename pattern now) with
  | none => (some (getCurrentFilename pattern now),
      mkdirParents (dirName (getCurrentFilename pattern now)) fs)
  | some _ => (none, mkdirParents (dirName (getCurrentFilename pattern now)) fs)

end LoggingExt

namespace LoggingExt

/-! # Theorems -/

/-- **C5**: the matcher compiled from the pattern `app-%Y-%m-%d.log`
accepts `app-2024-01-15.log` and rejects `app-2024-1-15.log`,
`application-2024-01-15.log` and `app-2024-01-15.txt`. -/
theorem matcher_app_pattern_cases :
    matchesName "app-%Y-%m-%d.log".data "app-2024-01-15.log".data = true ∧
    matchesName "app-%Y-%m-%d.log".data "app-2024-1-15.log".data = false ∧
    matchesName "app-%Y-%m-%d.log".data "application-2024-01-15.log".data = false ∧
    matchesName "app-%Y-%m-%d.log".data "app-2024-01-15.txt".data = false := by
  refine ⟨?_, ?_, ?_, ?_⟩ <;> decide

/-- **C6**: `_should_rollover` is the pure string-equality comparison of
the name formatted at the current instant against the currently open
filename: it is `true` exactly when they differ, `false` exactly when
two instants format to the same string, and `true` when no file has
been opened yet. -/
theorem shouldRollover_is_formatted_name_inequality (p cur : List Char)
    (t t1 t2 : DateTime) :
    (shouldRollover p (some cur) t = true ↔ getCurrentFilename p t ≠ cur) ∧
    (shouldRollover p (some (getCurrentFilename p t1)) t2 = false ↔
      getCurrentFilename p t2 = getCurrentFilename p t1) ∧
    shouldRollover p none t = true := by
  refine ⟨?_, ?_, rfl⟩ <;> simp [shouldRollover]

/-- **C9**: with a configured `keepCount ≤ 0` (stored as
`max(0, backup_count)`), a retention sweep deletes nothing: the
directory is returned unchanged whatever it contains. -/
theorem cleanup_noop_of_keepCount_nonpos (bc : Int) (pattern : List Char)
    (dir : List FileEntry) (h : bc ≤ 0) :
    cleanupOldFiles (effectiveBackupCount bc) pattern dir = dir := by
  have hz : effectiveBackupCount bc = 0 := by
    unfold effectiveBackupCount
    omega
  rw [hz]
  simp [cleanupOldFiles]

/-- Witness for `cleanup_noop_of_keepCount_nonpos` at `keepCount = -3`
on a one-file directory. -/
theorem cleanup_noop_of_keepCount_nonpos_witness :
    (-3 : Int) ≤ 0 ∧
    cleanupOldFiles (effectiveBackupCount (-3)) "a-%Y.log".data
      [⟨"a-2020.log".data, 5, true⟩] = [⟨"a-2020.log".data, 5, true⟩] :=
  ⟨by decide, cleanup_noop_of_keepCount_nonpos (-3) _ _ (by decide)⟩

/-! ### Sweep helper lemmas -/

/-- Every entry of `_get_matching_files` is a directory entry that
passes the matching-file filter. -/
theorem mem_getMatchingFiles {p : List Char} {dir : List FileEntry} {g : FileEntry}
    (hg : g ∈ getMatchingFiles p dir) : g ∈ dir ∧ isMatchingFile p g = true := by
  have : g ∈ dir.filter (isMatchingFile p) :=
    (List.perm_insertionSort mtimeGe _).subset hg
  exact ⟨(List.mem_filter.mp this).1, (List.mem_filter.mp this).2⟩

/-- In a directory whose names are distinct, entries are determined by
their name. -/
theorem entry_eq_of_name_eq {dir : List FileEntry}
    (hnodup : (dir.map FileEntry.name).Nodup) {f g : FileEntry}
    (hf : f ∈ dir) (hg : g ∈ dir) (h : g.name = f.name) : g = f :=
  List.inj_on_of_nodup_map hnodup hg hf h

/-- Survival of a directory entry under a sweep with positive
`backup_count`: exactly the entries outside the ranked tail survive. -/
theorem mem_cleanup_iff {k : Nat} (hk : 0 < k) {p : List Char} {dir : List FileEntry}
    (hnodup : (dir.map FileEntry.name).Nodup) {f : FileEntry} (hf : f ∈ dir) :
    f ∈ cleanupOldFiles k p dir ↔ f ∉ (getMatchingFiles p dir).drop (k + 1) := by
  unfold cleanupOldFiles
  rw [if_neg (by omega)]
  rw [List.mem_filter]
  constructor
  · rintro ⟨-, hcond⟩ hmem
    rw [Bool.not_eq_true', List.any_eq_false] at hcond
    have := hcond f hmem
    simp at this
  · intro hnot
    refine ⟨hf, ?_⟩
    rw [Bool.not_eq_true', List.any_eq_false]
    intro g hgmem hcontra
    have hname : g.name = f.name := eq_of_beq hcontra
    have hgdir : g ∈ dir := (mem_getMatchingFiles (List.mem_of_mem_drop hgmem)).1
    exact hnot (entry_eq_of_name_eq hnodup hf hgdir hname ▸ hgmem)

/-- A file deleted by a sweep was a matching regular file. -/
theorem cleanup_deleted_matches {k : Nat} {p : List Char} {dir : List FileEntry}
    (hnodup : (dir.map FileEntry.name).Nodup) {f : FileEntry} (hf : f ∈ dir)
    (hdel : f ∉ cleanupOldFiles k p dir) : isMatchingFile p f = true := by
  by_cases hk : 0 < k
  · have hmem : f ∈ (getMatchingFiles p dir).drop (k + 1) := by
      by_contra hnot
      exact hdel ((mem_cleanup_iff hk hnodup hf).mpr hnot)
    exact (mem_getMatchingFiles (List.mem_of_mem_drop hmem)).2
  · exfalso
    apply hdel
    have hz : k = 0 := by omega
    subst hz
    simpa [cleanupOldFiles] using hf

/-- **C3**: a retention sweep only ever deletes files whose name the
compiled pattern's matcher accepts; an entry that does not pass the
matching-file filter (however similar its name) always survives the
sweep. -/
theorem sweep_never_deletes_nonmatching (k : Nat) (p : List Char)
    (dir : List FileEntry) (hnodup : (dir.map FileEntry.name).Nodup)
    (f : FileEntry) (hf : f ∈ dir) :
    (f ∉ cleanupOldFiles k p dir → isMatchingFile p f = true) ∧
    (isMatchingFile p f = false → f ∈ cleanupOldFiles k p dir) := by
  constructor
  · exact fun hdel => cleanup_deleted_matches hnodup hf hdel
  · intro hno
    by_contra hdel
    rw [cleanup_deleted_matches hnodup hf hdel] at hno
    exact Bool.noConfusion hno

/-- A sweep never adds entries: its result is a sublist of the
directory. -/
theorem cleanup_sublist (k : Nat) (p : List Char) (dir : List FileEntry) :
    List.Sublist (cleanupOldFiles k p dir) dir := by
  unfold cleanupOldFiles
  split
  · exact List.Sublist.refl dir
  · exact List.filter_sublist dir

/-- **C2**: with `keepCount = 2`, sweeping a directory that holds
exactly six matching regular files — five pre-existing ones plus the
currently active file, which as the file just written is the most
recently modified — leaves exactly three matching files, among them the
active file, deletes no non-matching entry, and every surviving
matching file is at least as recent as every deleted file (so the
survivors are the active file and the two most recent others). -/
theorem sweep_keepCount_two_of_six (p : List Char) (dir : List FileEntry)
    (active : FileEntry)
    (hnodup : (dir.map FileEntry.name).Nodup)
    (hmem : active ∈ dir)
    (hmatch : isMatchingFile p active = true)
    (hnewest : ∀ f ∈ dir, isMatchingFile p f = true → f ≠ active →
      f.mtime < active.mtime)
    (hsix : (dir.filter (isMatchingFile p)).length = 6) :
    ((cleanupOldFiles 2 p dir).filter (isMatchingFile p)).length = 3 ∧
    active ∈ cleanupOldFiles 2 p dir ∧
    (∀ f ∈ dir, isMatchingFile p f = false → f ∈ cleanupOldFiles 2 p dir) ∧
    (∀ f ∈ cleanupOldFiles 2 p dir, isMatchingFile p f = true →
      ∀ g ∈ dir, g ∉ cleanupOldFiles 2 p dir → g.mtime ≤ f.mtime) := by
  have hk : (0 : Nat) < 2 := by omega
  have hperm : List.Perm (getMatchingFiles p dir) (dir.filter (isMatchingFile p)) :=
    List.perm_insertionSort _ _
  have hsorted : List.Sorted mtimeGe (getMatchingFiles p dir) :=
    List.sorted_insertionSort _ _
  have hlen6 : (getMatchingFiles p dir).length = 6 := by
    unfold getMatchingFiles
    rw [List.length_insertionSort]
    exact hsix
  have hnodupM : ((dir.filter (isMatchingFile p)).map FileEntry.name).Nodup :=
    List.Nodup.sublist (List.Sublist.map _ (List.filter_sublist dir)) hnodup
  have hnodupSrtNames : ((getMatchingFiles p dir).map FileEntry.name).Nodup :=
    ((hperm.map FileEntry.name).nodup_iff).mpr hnodupM
  have hnodupSrt : (getMatchingFiles p dir).Nodup :=
    List.Nodup.of_map _ hnodupSrtNames
  have happ : (getMatchingFiles p dir).take 3 ++ (getMatchingFiles p dir).drop 3 =
      getMatchingFiles p dir := List.take_append_drop 3 _
  have hdisj : ∀ x, x ∈ (getMatchingFiles p dir).take 3 →
      x ∈ (getMatchingFiles p dir).drop 3 → False := by
    intro x h1 h2
    have hnd : ((getMatchingFiles p dir).take 3 ++ (getMatchingFiles p dir).drop 3).Nodup := by
      rw [happ]
      exact hnodupSrt
    exact List.disjoint_of_nodup_append hnd h1 h2
  have hmemchar : ∀ x, (x ∈ cleanupOldFiles 2 p dir ∧ isMatchingFile p x = true) ↔
      x ∈ (getMatchingFiles p dir).take 3 := by
    intro x
    constructor
    · rintro ⟨hxr, hxm⟩
      have hxdir : x ∈ dir := (cleanup_sublist 2 p dir).subset hxr
      have hxnd : x ∉ (getMatchingFiles p dir).drop 3 :=
        (mem_cleanup_iff hk hnodup hxdir).mp hxr
      have hxsrt : x ∈ getMatchingFiles p dir :=
        hperm.mem_iff.mpr (List.mem_filter.mpr ⟨hxdir, hxm⟩)
      have hxapp : x ∈ (getMatchingFiles p dir).take 3 ++ (getMatchingFiles p dir).drop 3 := by
        rw [happ]
        exact hxsrt
      rcases List.mem_append.mp hxapp with h | h
      · exact h
      · exact absurd h hxnd
    · intro hxt
      have hxsrt : x ∈ getMatchingFiles p dir := List.mem_of_mem_take hxt
      have hxdir : x ∈ dir := (mem_getMatchingFiles hxsrt).1
      have hxm : isMatchingFile p x = true := (mem_getMatchingFiles hxsrt).2
      refine ⟨(mem_cleanup_iff hk hnodup hxdir).mpr (fun hd => hdisj x hxt hd), hxm⟩
  have hres_iff : ∀ x, x ∈ (cleanupOldFiles 2 p dir).filter (isMatchingFile p) ↔
      x ∈ (getMatchingFiles p dir).take 3 := by
    intro x
    rw [List.mem_filter]
    exact hmemchar x
  have hnodupRes : ((cleanupOldFiles 2 p dir).filter (isMatchingFile p)).Nodup := by
    have hsub : List.Sublist ((cleanupOldFiles 2 p dir).filter (isMatchingFile p)) dir :=
      (List.filter_sublist _).trans (cleanup_sublist 2 p dir)
    exact List.Nodup.of_map _ (List.Nodup.sublist (hsub.map _) hnodup)
  have hnodupTake : ((getMatchingFiles p dir).take 3).Nodup :=
    List.Nodup.sublist (List.take_sublist 3 _) hnodupSrt
  have hpermRes : List.Perm ((cleanupOldFiles 2 p dir).filter (isMatchingFile p))
      ((getMatchingFiles p dir).take 3) :=
    (List.perm_ext_iff_of_nodup hnodupRes hnodupTake).mpr hres_iff
  have hlen_take : ((getMatchingFiles p dir).take 3).length = 3 := by
    rw [List.length_take, hlen6]
    rfl
  have hpairs : ∀ a ∈ (getMatchingFiles p dir).take 3,
      ∀ b ∈ (getMatchingFiles p dir).drop 3, mtimeGe a b := by
    have hpw : List.Pairwise mtimeGe
        ((getMatchingFiles p dir).take 3 ++ (getMatchingFiles p dir).drop 3) := by
      rw [happ]
      exact hsorted
    exact (List.pairwise_append.mp hpw).2.2
  refine ⟨hpermRes.length_eq.trans hlen_take, ?_, ?_, ?_⟩
  · -- the active file survives
    have hactive_take : active ∈ (getMatchingFiles p dir).take 3 := by
      by_contra hnot
      have hactsrt : active ∈ getMatchingFiles p dir :=
        hperm.mem_iff.mpr (List.mem_filter.mpr ⟨hmem, hmatch⟩)
      have hactdrop : active ∈ (getMatchingFiles p dir).drop 3 := by
        have hactapp : active ∈ (getMatchingFiles p dir).take 3 ++
            (getMatchingFiles p dir).drop 3 := by
          rw [happ]
          exact hactsrt
        rcases List.mem_append.mp hactapp with h | h
        · exact absurd h hnot
        · exact h
      have hne : (getMatchingFiles p dir).take 3 ≠ [] := by
        intro hnil
        rw [hnil] at hlen_take
        simp at hlen_take
      obtain ⟨x, hxmem⟩ := List.exists_mem_of_ne_nil _ hne
      have hxsrt : x ∈ getMatchingFiles p dir := List.mem_of_mem_take hxmem
      have hxne : x ≠ active := fun h => hnot (h ▸ hxmem)
      have hlt : x.mtime < active.mtime :=
        hnewest x (mem_getMatchingFiles hxsrt).1 (mem_getMatchingFiles hxsrt).2 hxne
      have hge : active.mtime ≤ x.mtime := hpairs x hxmem active hactdrop
      omega
    exact ((hmemchar active).mpr hactive_take).1
  · -- non-matching entries survive
    intro f hf hno
    by_contra hdel
    rw [cleanup_deleted_matches hnodup hf hdel] at hno
    exact Bool.noConfusion hno
  · -- survivors are at least as recent as every deleted file
    intro f hfr hfm g hg hgdel
    have hgm : isMatchingFile p g = true := cleanup_deleted_matches hnodup hg hgdel
    have hgdrop : g ∈ (getMatchingFiles p dir).drop 3 := by
      by_contra hnot
      exact hgdel ((mem_cleanup_iff hk hnodup hg).mpr hnot)
    have hftake : f ∈ (getMatchingFiles p dir).take 3 := (hmemchar f).mp ⟨hfr, hfm⟩
    exact hpairs f hftake g hgdrop

/-- Witness for `sweep_keepCount_two_of_six`: pattern `app-%Y.log`,
five pre-existing matching files, the active file `app-2025.log` as
most recent, and a non-matching `notes.txt`. -/
theorem sweep_keepCount_two_of_six_witness :
    (let dir : List FileEntry :=
      [⟨"app-2025.log".data, 60, true⟩, ⟨"app-2024.log".data, 50, true⟩,
       ⟨"app-2023.log".data, 40, true⟩, ⟨"app-2022.log".data, 30, true⟩,
       ⟨"app-2021.log".data, 20, true⟩, ⟨"app-2020.log".data, 10, true⟩,
       ⟨"notes.txt".data, 99, true⟩];
    let active : FileEntry := ⟨"app-2025.log".data, 60, true⟩;
    ((cleanupOldFiles 2 "app-%Y.log".data dir).filter
        (isMatchingFile "app-%Y.log".data)).length = 3 ∧
    active ∈ cleanupOldFiles 2 "app-%Y.log".data dir ∧
    (∀ f ∈ dir, isMatchingFile "app-%Y.log".data f = false →
      f ∈ cleanupOldFiles 2 "app-%Y.log".data dir) ∧
    (∀ f ∈ cleanupOldFiles 2 "app-%Y.log".data dir,
      isMatchingFile "app-%Y.log".data f = true →
      ∀ g ∈ dir, g ∉ cleanupOldFiles 2 "app-%Y.log".data dir →
        g.mtime ≤ f.mtime)) :=
  sweep_keepCount_two_of_six "app-%Y.log".data _ _
    (by decide) (by decide) (by decide) (by decide) (by decide)

/-! ### String-pipeline lemmas

Unfolding equations for the fuelled `str.replace`, and how one
replacement pass moves over the escaped pattern token by token. -/

theorem replaceFuel_irrel (needle repl : List Char) :
    ∀ (f1 : Nat) (f2 : Nat) (s : List Char), s.length ≤ f1 → s.length ≤ f2 →
      replaceFuel needle repl f1 s = replaceFuel needle repl f2 s := by
  intro f1
  induction f1 with
  | zero =>
    intro f2 s h1 _
    have hs : s = [] := List.length_eq_zero.mp (Nat.le_zero.mp h1)
    subst hs
    cases f2 <;> rfl
  | succ g ih =>
    intro f2 s h1 h2
    cases s with
    | nil => cases f2 <;> rfl
    | cons c rest =>
      cases f2 with
      | zero => simp at h2
      | succ g2 =>
        simp only [replaceFuel]
        split
        · congr 1
          refine ih g2 _ ?_ ?_ <;>
            (rw [List.length_drop]; simp only [List.length_cons] at h1 h2; omega)
        · congr 1
          refine ih g2 _ ?_ ?_ <;> (simp only [List.length_cons] at h1 h2; omega)

theorem pyReplace_cons (needle repl : List Char) (c : Char) (rest : List Char) :
    pyReplace (c :: rest) needle repl =
      if needle.isPrefixOf (c :: rest) then
        repl ++ pyReplace (List.drop (needle.length - 1) rest) needle repl
      else c :: pyReplace rest needle repl := by
  show replaceFuel needle repl (rest.length + 1) (c :: rest) = _
  simp only [replaceFuel]
  split
  · congr 1
    apply replaceFuel_irrel
    · rw [List.length_drop]; omega
    · exact Nat.le_refl _
  · rfl

theorem not_isPrefixOf_of_head_ne {c0 a : Char} (h : a ≠ c0) (nrest xs : List Char) :
    (c0 :: nrest).isPrefixOf (a :: xs) = false := by
  simp [List.isPrefixOf]
  exact fun he => absurd he.symm h

/-- Scanning a needle that starts with `%` past a `%`-free segment
leaves the segment unchanged. -/
theorem pyReplace_pctfree_append {c0 : Char} (nrest repl : List Char)
    (s t : List Char) (hs : c0 ∉ s) :
    pyReplace (s ++ t) (c0 :: nrest) repl = s ++ pyReplace t (c0 :: nrest) repl := by
  induction s with
  | nil => rfl
  | cons a s' ih =>
    have ha : a ≠ c0 := fun h => hs (by rw [h]; exact List.mem_cons_self _ _)
    rw [List.cons_append, pyReplace_cons,
      if_neg (by simp [not_isPrefixOf_of_head_ne ha]),
      ih (fun hm => hs (List.mem_cons_of_mem _ hm)), List.cons_append]

/-- The needle `%x` fires exactly on its own two characters. -/
theorem pyReplace_hit (x : Char) (repl t : List Char) :
    pyReplace ('%' :: x :: t) ['%', x] repl = repl ++ pyReplace t ['%', x] repl := by
  rw [pyReplace_cons, if_pos (by simp [List.isPrefixOf])]
  rfl

/-- A two-character `%y` segment with `y` differing from the needle's
second character is copied unchanged. -/
theorem pyReplace_pct_skip {x needleC : Char} (hx1 : x ≠ needleC) (hx2 : x ≠ '%')
    (repl t : List Char) :
    pyReplace ('%' :: x :: t) ['%', needleC] repl =
      '%' :: x :: pyReplace t ['%', needleC] repl := by
  rw [pyReplace_cons,
    if_neg (by simp [List.isPrefixOf]; exact fun h => absurd h.symm hx1)]
  rw [pyReplace_cons, if_neg (by simp [not_isPrefixOf_of_head_ne hx2])]

/-- A three-character `%\x` segment (escaped unknown directive) is
copied unchanged by any `%c` needle with `c ≠ \`. -/
theorem pyReplace_pct_esc_skip {x needleC : Char} (hn : needleC ≠ '\\')
    (hx : x ≠ '%') (repl t : List Char) :
    pyReplace ('%' :: '\\' :: x :: t) ['%', needleC] repl =
      '%' :: '\\' :: x :: pyReplace t ['%', needleC] repl := by
  rw [pyReplace_cons,
    if_neg (by simp [List.isPrefixOf]; exact hn)]
  rw [pyReplace_cons,
    if_neg (by simp [not_isPrefixOf_of_head_ne (by decide : ('\\' : Char) ≠ '%')])]
  rw [pyReplace_cons, if_neg (by simp [not_isPrefixOf_of_head_ne hx])]

/-! ### Placeholder character facts -/

theorem phChar_mem (q : PHolder) : q.char ∈ recognizedChars := by
  cases q <;> decide

theorem phChar_not_special (q : PHolder) :
    pySpecialChars.contains q.char = false := by
  cases q <;> decide

theorem phChar_ne_pct (q : PHolder) : q.char ≠ '%' := by
  cases q <;> decide

theorem phChar_ne_backslash (q : PHolder) : q.char ≠ '\\' := by
  cases q <;> decide

theorem phChar_inj (q r : PHolder) (h : q.char = r.char) : q = r := by
  cases q <;> cases r <;> first | rfl | (exact absurd h (by decide))

theorem fragOf_nomem_pct (q : PHolder) : '%' ∉ fragOf q := by
  cases q <;> decide

theorem reEscape_needle (q : PHolder) :
    reEscape ['%', q.char] = ['%', q.char] := by
  cases q <;> decide

theorem reEscapeChar_nomem_pct {c : Char} (hc : c ≠ '%') : '%' ∉ reEscapeChar c := by
  intro hmem
  unfold reEscapeChar at hmem
  split at hmem
  · simp only [List.mem_cons, List.not_mem_nil, or_false] at hmem
    rcases hmem with h | h
    · exact absurd h (by decide)
    · exact hc h.symm
  · simp only [List.mem_cons, List.not_mem_nil, or_false] at hmem
    exact hc hmem.symm

/-! ### The escape and replacement passes over a rendered pattern -/

theorem reEscape_append (a b : List Char) :
    reEscape (a ++ b) = reEscape a ++ reEscape b := by
  unfold reEscape
  rw [List.flatMap_append]

theorem escTok_midTok_nil (tok : Tok) : reEscape tok.render = midTok [] tok := by
  cases tok with
  | lit c =>
    show reEscapeChar c ++ [].flatMap reEscapeChar = reEscapeChar c
    simp
  | ph q =>
    show reEscapeChar '%' ++ ([q.char].flatMap reEscapeChar) = _
    have h1 : reEscapeChar '%' = ['%'] := by decide
    have h2 : reEscapeChar q.char = [q.char] := by
      unfold reEscapeChar
      rw [phChar_not_special]
      simp
    simp [h1, h2, midTok]
  | unk c =>
    show reEscapeChar '%' ++ ([c].flatMap reEscapeChar) = '%' :: reEscapeChar c
    have h1 : reEscapeChar '%' = ['%'] := by decide
    simp [h1]

theorem reEscape_render (P : List Tok) :
    reEscape (renderPattern P) = P.flatMap (midTok []) := by
  induction P with
  | nil => rfl
  | cons tok P' ih =>
    show reEscape (tok.render ++ renderPattern P') = _
    rw [reEscape_append, escTok_midTok_nil, ih]
    rfl

theorem replacements_eq :
    replacements = allPHolders.map (fun q => (['%', q.char], fragOf q)) := by
  decide

/-- One pass of `str.replace` with the needle of placeholder `q` over
the token-segmented intermediate string. -/
theorem pyReplace_midTok (q : PHolder) (done : List PHolder)
    (P : List Tok) (hWF : ∀ tok ∈ P, tok.WF) :
    pyReplace (P.flatMap (midTok done)) ['%', q.char] (fragOf q) =
      P.flatMap (midTok (done ++ [q])) := by
  induction P with
  | nil => rfl
  | cons tok P' ih =>
    have hWFt : tok.WF := hWF tok (List.mem_cons_self _ _)
    have hWF' : ∀ x ∈ P', x.WF := fun x hx => hWF x (List.mem_cons_of_mem _ hx)
    rw [List.flatMap_cons, List.flatMap_cons]
    cases tok with
    | lit c =>
      have hc : c ≠ '%' := hWFt
      show pyReplace (reEscapeChar c ++ _) _ _ = reEscapeChar c ++ _
      rw [pyReplace_pctfree_append _ _ _ _ (reEscapeChar_nomem_pct hc), ih hWF']
    | unk c =>
      obtain ⟨hc1, hc2, -⟩ := hWFt
      show pyReplace (('%' :: reEscapeChar c) ++ _) _ _ = ('%' :: reEscapeChar c) ++ _
      by_cases hsp : pySpecialChars.contains c
      · have he : reEscapeChar c = ['\\', c] := by
          unfold reEscapeChar
          rw [if_pos hsp]
        rw [he]
        simp only [List.cons_append, List.nil_append]
        rw [pyReplace_pct_esc_skip (phChar_ne_backslash q) hc1, ih hWF']
      · have he : reEscapeChar c = [c] := by
          unfold reEscapeChar
          rw [if_neg hsp]
        rw [he]
        simp only [List.cons_append, List.nil_append]
        have hcq : c ≠ q.char := fun h => hc2 (h ▸ phChar_mem q)
        rw [pyReplace_pct_skip hcq hc1, ih hWF']
    | ph r =>
      by_cases hr : r ∈ done
      · have h1 : midTok done (Tok.ph r) = fragOf r := by simp [midTok, hr]
        have h2 : midTok (done ++ [q]) (Tok.ph r) = fragOf r := by
          simp [midTok, List.mem_append, hr]
        rw [h1, h2, pyReplace_pctfree_append _ _ _ _ (fragOf_nomem_pct r), ih hWF']
      · have h1 : midTok done (Tok.ph r) = ['%', r.char] := by simp [midTok, hr]
        by_cases hrq : r = q
        · subst hrq
          have h2 : midTok (done ++ [r]) (Tok.ph r) = fragOf r := by
            simp [midTok]
          rw [h1, h2]
          simp only [List.cons_append, List.nil_append]
          rw [pyReplace_hit, ih hWF']
        · have hchar : r.char ≠ q.char := fun h => hrq (phChar_inj r q h)
          have h2 : midTok (done ++ [q]) (Tok.ph r) = ['%', r.char] := by
            simp [midTok, List.mem_append, hr, hrq]
          rw [h1, h2]
          simp only [List.cons_append, List.nil_append]
          rw [pyReplace_pct_skip hchar (phChar_ne_pct r), ih hWF']

/-- Folding the whole replacement table over the escaped pattern. -/
theorem foldl_pyReplace_phs (qs : List PHolder) :
    ∀ (done : List PHolder) (P : List Tok), (∀ tok ∈ P, tok.WF) →
      qs.foldl (fun acc q => pyReplace acc (reEscape ['%', q.char]) (fragOf q))
        (P.flatMap (midTok done)) = P.flatMap (midTok (done ++ qs)) := by
  induction qs with
  | nil =>
    intro done P _
    simp
  | cons q qs' ih =>
    intro done P hWF
    rw [List.foldl_cons, reEscape_needle q, pyReplace_midTok q done P hWF,
      ih (done ++ [q]) P hWF, List.append_assoc]
    rfl

/-! ### Parser lemmas

Manual unfolding equations for the fuelled parser, fuel irrelevance,
and the item lists the compiled fragments parse to. -/

theorem parseGroupFuel_succ (fuel : Nat) (c : Char) (rest cur : List Char)
    (alts : List (List Char)) :
    parseGroupFuel (fuel + 1) (c :: rest) cur alts =
      (if c = ')' then some ((cur.reverse :: alts).reverse, rest)
      else if c = '|' then parseGroupFuel fuel rest [] (cur.reverse :: alts)
      else if c = '\\' then
        match rest with
        | c2 :: r2 => parseGroupFuel fuel r2 (c2 :: cur) alts
        | [] => none
      else if metaChars.contains c then none
      else parseGroupFuel fuel rest (c :: cur) alts) := rfl

theorem parseGroupFuel_irrel :
    ∀ (f1 f2 : Nat) (s cur : List Char) (alts : List (List Char)),
      s.length < f1 → s.length < f2 →
      parseGroupFuel f1 s cur alts = parseGroupFuel f2 s cur alts := by
  intro f1
  induction f1 with
  | zero =>
    intro f2 s cur alts h1 _
    omega
  | succ g1 ih =>
    intro f2 s cur alts h1 h2
    cases s with
    | nil =>
      cases f2 with
      | zero => omega
      | succ g2 => rfl
    | cons c rest =>
      cases f2 with
      | zero => omega
      | succ g2 =>
        simp only [List.length_cons] at h1 h2
        rw [parseGroupFuel_succ, parseGroupFuel_succ]
        split_ifs
        · rfl
        · exact ih g2 rest [] _ (by omega) (by omega)
        · cases rest with
          | nil => rfl
          | cons c2 r2 =>
            exact ih g2 r2 _ _ (by simp at h1 ⊢; omega) (by simp at h2 ⊢; omega)
        · rfl
        · exact ih g2 rest _ _ (by omega) (by omega)

theorem parseGroupFuel_lt :
    ∀ (f : Nat) (s cur : List Char) (alts : List (List Char))
      (res : List (List Char) × List Char),
      parseGroupFuel f s cur alts = some res → res.2.length < s.length := by
  intro f
  induction f with
  | zero =>
    intro s cur alts res h
    exact absurd h (by simp [parseGroupFuel])
  | succ g ih =>
    intro s cur alts res h
    cases s with
    | nil => exact absurd h (by simp [parseGroupFuel])
    | cons c rest =>
      rw [parseGroupFuel_succ] at h
      split_ifs at h
      · rw [Option.some_inj] at h
        subst h
        show rest.length < (c :: rest).length
        simp only [List.length_cons]
        omega
      · have hlt := ih rest [] _ res h
        simp only [List.length_cons]
        omega
      · cases rest with
        | nil =>
          have h' : (none : Option (List (List Char) × List Char)) = some res := h
          exact Option.noConfusion h'
        | cons c2 r2 =>
          have hlt := ih r2 _ _ res h
          simp only [List.length_cons] at hlt ⊢
          omega
      · have hlt := ih rest _ _ res h
        simp only [List.length_cons]
        omega

theorem parseQuant_le {k : CCls} {s : List Char} {ir : RItem × List Char}
    (h : parseQuant k s = some ir) : ir.2.length ≤ s.length := by
  unfold parseQuant at h
  split at h
  · rename_i r2
    split at h
    · rename_i r3 heq
      split_ifs at h
      · rw [Option.some_inj] at h
        subst h
        have hlen := congrArg List.length heq
        rw [List.length_drop] at hlen
        simp only [List.length_cons] at hlen ⊢
        omega
    · exact Option.noConfusion h
  · rename_i r2
    rw [Option.some_inj] at h
    subst h
    simp
  · rw [Option.some_inj] at h
    subst h
    exact Nat.le_refl _

theorem parseItemsFuel_succ (fuel : Nat) (c : Char) (rest : List Char) :
    parseItemsFuel (fuel + 1) (c :: rest) =
      (if c = '$' then
        match rest with
        | [] => some []
        | _ => none
      else if c = '\\' then
        match rest with
        | [] => none
        | c2 :: r2 =>
          if c2 = 'd' ∨ c2 = 'w' then
            match parseQuant (if c2 = 'd' then CCls.digit else CCls.word) r2 with
            | none => none
            | some ir => (parseItemsFuel fuel ir.2).map (ir.1 :: ·)
          else
            (parseItemsFuel fuel r2).map (RItem.lit c2 :: ·)
      else if c = '(' then
        match parseGroupFuel fuel rest [] [] with
        | none => none
        | some gr => (parseItemsFuel fuel gr.2).map (RItem.altLits gr.1 :: ·)
      else if metaChars.contains c then none
      else
        (parseItemsFuel fuel rest).map (RItem.lit c :: ·)) := rfl

theorem parseItemsFuel_irrel :
    ∀ (f1 f2 : Nat) (s : List Char), s.length < f1 → s.length < f2 →
      parseItemsFuel f1 s = parseItemsFuel f2 s := by
  intro f1
  induction f1 with
  | zero =>
    intro f2 s h1 _
    omega
  | succ g1 ih =>
    intro f2 s h1 h2
    cases s with
    | nil =>
      cases f2 with
      | zero => omega
      | succ g2 => rfl
    | cons c rest =>
      cases f2 with
      | zero => omega
      | succ g2 =>
        simp only [List.length_cons] at h1 h2
        rw [parseItemsFuel_succ, parseItemsFuel_succ]
        split_ifs
        · rfl
        · cases rest with
          | nil => rfl
          | cons c2 r2 =>
            simp only [List.length_cons] at h1 h2
            show (if c2 = 'd' ∨ c2 = 'w' then
                match parseQuant (if c2 = 'd' then CCls.digit else CCls.word) r2 with
                | none => none
                | some ir => (parseItemsFuel g1 ir.2).map (ir.1 :: ·)
              else (parseItemsFuel g1 r2).map (RItem.lit c2 :: ·)) =
              (if c2 = 'd' ∨ c2 = 'w' then
                match parseQuant (if c2 = 'd' then CCls.digit else CCls.word) r2 with
                | none => none
                | some ir => (parseItemsFuel g2 ir.2).map (ir.1 :: ·)
              else (parseItemsFuel g2 r2).map (RItem.lit c2 :: ·))
            split_ifs
            · cases hq : parseQuant CCls.digit r2 with
              | none => rfl
              | some ir =>
                have hle := parseQuant_le hq
                dsimp only
                rw [ih g2 ir.2 (by omega) (by omega)]
            · cases hq : parseQuant CCls.word r2 with
              | none => rfl
              | some ir =>
                have hle := parseQuant_le hq
                dsimp only
                rw [ih g2 ir.2 (by omega) (by omega)]
            · rw [ih g2 r2 (by omega) (by omega)]
        · rw [parseGroupFuel_irrel g1 g2 rest [] [] (by omega) (by omega)]
          cases hg : parseGroupFuel g2 rest [] [] with
          | none => rfl
          | some gr =>
            have hlt := parseGroupFuel_lt g2 rest [] [] gr hg
            dsimp only
            rw [ih g2 gr.2 (by omega) (by omega)]
        · rfl
        · rw [ih g2 rest (by omega) (by omega)]

/-- Fuel irrelevance specialized to `parseItems`. -/
theorem parseItemsFuel_run (f : Nat) (s : List Char) (hf : s.length < f) :
    parseItemsFuel f s = parseItems s :=
  parseItemsFuel_irrel f (s.length + 1) s hf (by omega)

/-- The compiled regex string of a rendered pattern, token by token. -/
theorem convert_render (P : List Tok) (hWF : ∀ tok ∈ P, tok.WF) :
    convertPatternToRegex (renderPattern P) =
      '^' :: (P.flatMap (midTok allPHolders) ++ ['$']) := by
  have h1 : convertPatternToRegex (renderPattern P) =
      '^' :: (replacements.foldl (fun acc kv => pyReplace acc (reEscape kv.1) kv.2)
        (reEscape (renderPattern P)) ++ ['$']) := rfl
  rw [h1, reEscape_render, replacements_eq, List.foldl_map]
  have h2 := foldl_pyReplace_phs allPHolders [] P hWF
  rw [List.nil_append] at h2
  exact congrArg (fun z => '^' :: (z ++ ['$'])) h2

theorem meta_sub_special {c : Char} (hc : pySpecialChars.contains c = false) :
    metaChars.contains c = false := by
  by_contra h
  rw [Bool.not_eq_false, List.elem_iff] at h
  have hmem : c ∈ pySpecialChars := by
    fin_cases h <;> decide
  rw [Bool.eq_false_iff] at hc
  exact hc (List.elem_iff.mpr hmem)

/-- A plain (unescaped) non-special character parses as itself. -/
theorem parseItems_cons_char (c : Char) (hc : pySpecialChars.contains c = false)
    (s : List Char) :
    parseItems (c :: s) = (parseItems s).map (RItem.lit c :: ·) := by
  have hd : c ≠ '$' := fun h => by subst h; exact absurd hc (by decide)
  have hb : c ≠ '\\' := fun h => by subst h; exact absurd hc (by decide)
  have hp : c ≠ '(' := fun h => by subst h; exact absurd hc (by decide)
  have hm : ¬(metaChars.contains c = true) := by
    rw [meta_sub_special hc]
    exact Bool.noConfusion
  show parseItemsFuel (s.length + 1 + 1) (c :: s) = _
  rw [parseItemsFuel_succ, if_neg hd, if_neg hb, if_neg hp, if_neg hm,
    parseItemsFuel_run (s.length + 1) s (by omega)]

/-- An escaped character other than `d`/`w` parses as a literal. -/
theorem parseItems_esc_char (c : Char) (hd : c ≠ 'd') (hw : c ≠ 'w') (s : List Char) :
    parseItems ('\\' :: c :: s) = (parseItems s).map (RItem.lit c :: ·) := by
  show parseItemsFuel (s.length + 2 + 1) ('\\' :: c :: s) = _
  rw [parseItemsFuel_succ, if_neg (by decide : ¬('\\' = '$')),
    if_pos (rfl : '\\' = '\\')]
  dsimp only
  rw [if_neg (by push_neg; exact ⟨hd, hw⟩), parseItemsFuel_run (s.length + 2) s (by omega)]

theorem parseItems_d4 (s : List Char) :
    parseItems ('\\' :: 'd' :: '{' :: '4' :: '}' :: s) =
      (parseItems s).map (RItem.cls .digit 4 :: ·) := by
  have h1 : parseItemsFuel (s.length + 5 + 1) ('\\' :: 'd' :: '{' :: '4' :: '}' :: s) =
      (parseItemsFuel (s.length + 5) s).map (RItem.cls .digit 4 :: ·) := rfl
  show parseItemsFuel (s.length + 5 + 1) _ = _
  rw [h1, parseItemsFuel_run (s.length + 5) s (by omega)]

theorem parseItems_d3 (s : List Char) :
    parseItems ('\\' :: 'd' :: '{' :: '3' :: '}' :: s) =
      (parseItems s).map (RItem.cls .digit 3 :: ·) := by
  have h1 : parseItemsFuel (s.length + 5 + 1) ('\\' :: 'd' :: '{' :: '3' :: '}' :: s) =
      (parseItemsFuel (s.length + 5) s).map (RItem.cls .digit 3 :: ·) := rfl
  show parseItemsFuel (s.length + 5 + 1) _ = _
  rw [h1, parseItemsFuel_run (s.length + 5) s (by omega)]

theorem parseItems_d2 (s : List Char) :
    parseItems ('\\' :: 'd' :: '{' :: '2' :: '}' :: s) =
      (parseItems s).map (RItem.cls .digit 2 :: ·) := by
  have h1 : parseItemsFuel (s.length + 5 + 1) ('\\' :: 'd' :: '{' :: '2' :: '}' :: s) =
      (parseItemsFuel (s.length + 5) s).map (RItem.cls .digit 2 :: ·) := rfl
  show parseItemsFuel (s.length + 5 + 1) _ = _
  rw [h1, parseItemsFuel_run (s.length + 5) s (by omega)]

theorem parseItems_w3 (s : List Char) :
    parseItems ('\\' :: 'w' :: '{' :: '3' :: '}' :: s) =
      (parseItems s).map (RItem.cls .word 3 :: ·) := by
  have h1 : parseItemsFuel (s.length + 5 + 1) ('\\' :: 'w' :: '{' :: '3' :: '}' :: s) =
      (parseItemsFuel (s.length + 5) s).map (RItem.cls .word 3 :: ·) := rfl
  show parseItemsFuel (s.length + 5 + 1) _ = _
  rw [h1, parseItemsFuel_run (s.length + 5) s (by omega)]

theorem parseItems_wplus (s : List Char) :
    parseItems ('\\' :: 'w' :: '+' :: s) =
      (parseItems s).map (RItem.clsPlus .word :: ·) := by
  have h1 : parseItemsFuel (s.length + 3 + 1) ('\\' :: 'w' :: '+' :: s) =
      (parseItemsFuel (s.length + 3) s).map (RItem.clsPlus .word :: ·) := rfl
  show parseItemsFuel (s.length + 3 + 1) _ = _
  rw [h1, parseItemsFuel_run (s.length + 3) s (by omega)]

theorem parseItems_ampm (s : List Char) :
    parseItems ('(' :: 'A' :: 'M' :: '|' :: 'P' :: 'M' :: ')' :: s) =
      (parseItems s).map (RItem.altLits ["AM".data, "PM".data] :: ·) := by
  have h1 : parseItemsFuel (s.length + 7 + 1)
        ('(' :: 'A' :: 'M' :: '|' :: 'P' :: 'M' :: ')' :: s) =
      (parseItemsFuel (s.length + 7) s).map
        (RItem.altLits ["AM".data, "PM".data] :: ·) := rfl
  show parseItemsFuel (s.length + 7 + 1) _ = _
  rw [h1, parseItemsFuel_run (s.length + 7) s (by omega)]

/-- One token's compiled fragment parses to its item list, whatever
follows. -/
theorem parseItems_midTok (tok : Tok) (hWF : tok.WF) (rest : List Char) :
    parseItems (midTok allPHolders tok ++ rest) =
      (parseItems rest).map (itemsTok tok ++ ·) := by
  cases tok with
  | lit c =>
    show parseItems (reEscapeChar c ++ rest) = _
    by_cases hsp : pySpecialChars.contains c
    · have hd : c ≠ 'd' := fun h => by subst h; exact absurd hsp (by decide)
      have hw : c ≠ 'w' := fun h => by subst h; exact absurd hsp (by decide)
      have he : reEscapeChar c = ['\\', c] := by
        unfold reEscapeChar
        rw [if_pos hsp]
      rw [he]
      simp only [List.cons_append, List.nil_append]
      rw [parseItems_esc_char c hd hw rest]
      rfl
    · have he : reEscapeChar c = [c] := by
        unfold reEscapeChar
        rw [if_neg hsp]
      rw [he]
      simp only [List.cons_append, List.nil_append]
      rw [parseItems_cons_char c (Bool.eq_false_iff.mpr hsp) rest]
      rfl
  | ph q =>
    cases q
    case Y =>
      show parseItems ('\\' :: 'd' :: '{' :: '4' :: '}' :: rest) = _
      rw [parseItems_d4]
      rfl
    case y =>
      show parseItems ('\\' :: 'd' :: '{' :: '2' :: '}' :: rest) = _
      rw [parseItems_d2]
      rfl
    case m =>
      show parseItems ('\\' :: 'd' :: '{' :: '2' :: '}' :: rest) = _
      rw [parseItems_d2]
      rfl
    case d =>
      show parseItems ('\\' :: 'd' :: '{' :: '2' :: '}' :: rest) = _
      rw [parseItems_d2]
      rfl
    case H =>
      show parseItems ('\\' :: 'd' :: '{' :: '2' :: '}' :: rest) = _
      rw [parseItems_d2]
      rfl
    case I =>
      show parseItems ('\\' :: 'd' :: '{' :: '2' :: '}' :: rest) = _
      rw [parseItems_d2]
      rfl
    case M =>
      show parseItems ('\\' :: 'd' :: '{' :: '2' :: '}' :: rest) = _
      rw [parseItems_d2]
      rfl
    case S =>
      show parseItems ('\\' :: 'd' :: '{' :: '2' :: '}' :: rest) = _
      rw [parseItems_d2]
      rfl
    case j =>
      show parseItems ('\\' :: 'd' :: '{' :: '3' :: '}' :: rest) = _
      rw [parseItems_d3]
      rfl
    case U =>
      show parseItems ('\\' :: 'd' :: '{' :: '2' :: '}' :: rest) = _
      rw [parseItems_d2]
      rfl
    case W =>
      show parseItems ('\\' :: 'd' :: '{' :: '2' :: '}' :: rest) = _
      rw [parseItems_d2]
      rfl
    case a =>
      show parseItems ('\\' :: 'w' :: '{' :: '3' :: '}' :: rest) = _
      rw [parseItems_w3]
      rfl
    case A =>
      show parseItems ('\\' :: 'w' :: '+' :: rest) = _
      rw [parseItems_wplus]
      rfl
    case b =>
      show parseItems ('\\' :: 'w' :: '{' :: '3' :: '}' :: rest) = _
      rw [parseItems_w3]
      rfl
    case B =>
      show parseItems ('\\' :: 'w' :: '+' :: rest) = _
      rw [parseItems_wplus]
      rfl
    case p =>
      show parseItems ('(' :: 'A' :: 'M' :: '|' :: 'P' :: 'M' :: ')' :: rest) = _
      rw [parseItems_ampm]
      rfl
  | unk c =>
    obtain ⟨hc1, _⟩ := hWF
    show parseItems ('%' :: (reEscapeChar c ++ rest)) = _
    rw [parseItems_cons_char '%' (by decide)]
    by_cases hsp : pySpecialChars.contains c
    · have hd : c ≠ 'd' := fun h => by subst h; exact absurd hsp (by decide)
      have hw : c ≠ 'w' := fun h => by subst h; exact absurd hsp (by decide)
      have he : reEscapeChar c = ['\\', c] := by
        unfold reEscapeChar
        rw [if_pos hsp]
      rw [he]
      simp only [List.cons_append, List.nil_append]
      rw [parseItems_esc_char c hd hw rest, Option.map_map]
      rfl
    · have he : reEscapeChar c = [c] := by
        unfold reEscapeChar
        rw [if_neg hsp]
      rw [he]
      simp only [List.cons_append, List.nil_append]
      rw [parseItems_cons_char c (Bool.eq_false_iff.mpr hsp) rest, Option.map_map]
      rfl

/-- The regex body of a rendered pattern parses to the tokens' item
lists. -/
theorem parseItems_flat (P : List Tok) (hWF : ∀ tok ∈ P, tok.WF) :
    parseItems (P.flatMap (midTok allPHolders) ++ ['$']) =
      some (P.flatMap itemsTok) := by
  induction P with
  | nil => rfl
  | cons tok P' ih =>
    rw [List.flatMap_cons, List.append_assoc,
      parseItems_midTok tok (hWF tok (List.mem_cons_self _ _)),
      ih (fun x hx => hWF x (List.mem_cons_of_mem _ hx))]
    rfl

/-- The compiled matcher of a rendered pattern is exactly the tokens'
item lists. -/
theorem compiledItems_render (P : List Tok) (hWF : ∀ tok ∈ P, tok.WF) :
    compiledItems (renderPattern P) = some (P.flatMap itemsTok) := by
  unfold compiledItems
  rw [convert_render P hWF]
  exact parseItems_flat P hWF


/-- Witness for `sweep_never_deletes_nonmatching`: with pattern
`app-%Y.log` and `keepCount = 1`, the prefix-colliding entry
`application-2024.log` survives a sweep of a directory holding three
matching files and the collider. -/
theorem sweep_never_deletes_nonmatching_witness :
    (let dir : List FileEntry :=
      [⟨"app-2024.log".data, 30, true⟩, ⟨"app-2023.log".data, 20, true⟩,
       ⟨"app-2022.log".data, 10, true⟩, ⟨"application-2024.log".data, 1, true⟩];
    (dir.map FileEntry.name).Nodup ∧
    ⟨"application-2024.log".data, 1, true⟩ ∈ dir ∧
    isMatchingFile "app-%Y.log".data ⟨"application-2024.log".data, 1, true⟩ = false ∧
    ⟨"application-2024.log".data, 1, true⟩ ∈
      cleanupOldFiles 1 "app-%Y.log".data dir) := by
  refine ⟨by decide, by decide, by decide, ?_⟩
  exact (sweep_never_deletes_nonmatching 1 "app-%Y.log".data _ (by decide) _
    (by decide)).2 (by decide)


/-! ### `strftime` over a rendered pattern -/

theorem strfCode_unk {c : Char} (h : c ∉ strfKnownChars)
    (t : DateTime) : strfCode c t = ['%', c] := by
  unfold strfCode
  have hnone : strfTable.find? (fun kv => kv.1 == c) = none := by
    rw [List.find?_eq_none]
    intro kv hkv
    fin_cases hkv <;>
      (intro he; exact h ((eq_of_beq he) ▸ (by decide)))
  rw [hnone]

theorem strfRun_cons_lit (t : DateTime) {c : Char} (hc : c ≠ '%')
    (rest : List Char) : strfRun t (c :: rest) = c :: strfRun t rest := by
  cases rest with
  | nil =>
    simp only [strfRun]
    rw [if_neg hc]
  | cons c2 r2 =>
    simp only [strfRun]
    rw [if_neg hc]

theorem strfRun_cons_pct (t : DateTime) (c2 : Char) (rest : List Char) :
    strfRun t ('%' :: c2 :: rest) = strfCode c2 t ++ strfRun t rest := by
  simp [strfRun]

/-- `strftime` of a rendered pattern, token by token. -/
theorem strfRun_render (t : DateTime) (P : List Tok) (hWF : ∀ tok ∈ P, tok.WF) :
    strfRun t (renderPattern P) = P.flatMap (fun tok => tokFmt tok t) := by
  induction P with
  | nil => rfl
  | cons tok P' ih =>
    have hWFt : tok.WF := hWF tok (List.mem_cons_self _ _)
    have hWF' : ∀ x ∈ P', x.WF := fun x hx => hWF x (List.mem_cons_of_mem _ hx)
    rw [List.flatMap_cons]
    cases tok with
    | lit c =>
      show strfRun t (c :: renderPattern P') = [c] ++ _
      rw [strfRun_cons_lit t hWFt, ih hWF']
      rfl
    | ph q =>
      show strfRun t ('%' :: q.char :: renderPattern P') = strfCode q.char t ++ _
      rw [strfRun_cons_pct, ih hWF']
    | unk c =>
      obtain ⟨hc1, hc2, hc3⟩ := hWFt
      have hk : c ∉ strfKnownChars := fun hm => hc3 (List.mem_append_left _ hm)
      show strfRun t ('%' :: c :: renderPattern P') = ['%', c] ++ _
      rw [strfRun_cons_pct, ih hWF', strfCode_unk hk]

/-! ### Matcher soundness -/

theorem mem_matchSeq_append {is1 : List RItem} {is2 : List RItem}
    {s r r2 : List Char} (h : r ∈ matchSeq is1 s) (h2 : r2 ∈ matchSeq is2 r) :
    r2 ∈ matchSeq (is1 ++ is2) s := by
  induction is1 generalizing s with
  | nil =>
    have hs : r = s := by simpa [matchSeq] using h
    subst hs
    simpa using h2
  | cons i is1' ih =>
    simp only [matchSeq, List.mem_flatMap] at h
    obtain ⟨u, hu, hr⟩ := h
    simp only [List.cons_append, matchSeq, List.mem_flatMap]
    exact ⟨u, hu, ih hr⟩

theorem consumeN_exact {k : CCls} (u rest : List Char)
    (hall : ∀ c ∈ u, inCls k c = true) :
    consumeN k u.length (u ++ rest) = some rest := by
  induction u with
  | nil => rfl
  | cons c u' ih =>
    show consumeN k (u'.length + 1) (c :: (u' ++ rest)) = some rest
    simp only [consumeN]
    rw [if_pos (hall c (List.mem_cons_self _ _)),
      ih (fun x hx => hall x (List.mem_cons_of_mem _ hx))]

theorem mem_plusSuffixes {k : CCls} (u rest : List Char) (hne : u ≠ [])
    (hall : ∀ c ∈ u, inCls k c = true) :
    rest ∈ plusSuffixes k (u ++ rest) := by
  induction u with
  | nil => exact absurd rfl hne
  | cons c u' ih =>
    show rest ∈ plusSuffixes k (c :: (u' ++ rest))
    simp only [plusSuffixes]
    rw [if_pos (hall c (List.mem_cons_self _ _))]
    by_cases hu : u' = []
    · subst hu
      exact List.mem_cons_self _ _
    · exact List.mem_cons_of_mem _
        (ih hu (fun x hx => hall x (List.mem_cons_of_mem _ hx)))

theorem digitChar_isDigit {n : Nat} (h : n < 10) :
    (Nat.digitChar n).isDigit = true := by
  interval_cases n <;> decide

theorem natDigitsAux_digits :
    ∀ (fuel n : Nat) (acc : List Char), (∀ c ∈ acc, c.isDigit = true) →
      ∀ c ∈ natDigitsAux fuel n acc, c.isDigit = true := by
  intro fuel
  induction fuel with
  | zero => intro n acc hacc c hc; exact hacc c hc
  | succ g ih =>
    intro n acc hacc c hc
    simp only [natDigitsAux] at hc
    split_ifs at hc with h10
    · rcases List.mem_cons.mp hc with h | h
      · subst h
        exact digitChar_isDigit h10
      · exact hacc c h
    · refine ih (n / 10) _ ?_ c hc
      intro x hx
      rcases List.mem_cons.mp hx with h | h
      · subst h
        exact digitChar_isDigit (Nat.mod_lt _ (by omega))
      · exact hacc x h

theorem natDigitsAux_len :
    ∀ (fuel k n : Nat) (acc : List Char), n < 10 ^ k → 1 ≤ k →
      (natDigitsAux fuel n acc).length ≤ k + acc.length := by
  intro fuel
  induction fuel with
  | zero =>
    intro k n acc _ _
    simp [natDigitsAux]
  | succ g ih =>
    intro k n acc hn hk
    simp only [natDigitsAux]
    split_ifs with h10
    · simp only [List.length_cons]
      omega
    · have hk2 : 2 ≤ k := by
        by_contra hlt
        have hk1 : k = 1 := by omega
        subst hk1
        simp at hn
        omega
      have hrec := ih (k - 1) (n / 10) (Nat.digitChar (n % 10) :: acc)
        (by
          have hpow : 10 ^ k = 10 ^ (k - 1) * 10 := by
            conv_lhs => rw [show k = (k - 1) + 1 by omega]
            rw [pow_succ]
          rw [Nat.div_lt_iff_lt_mul (by omega), ← hpow]
          exact hn)
        (by omega)
      simp only [List.length_cons] at hrec
      omega

theorem natDigits_digits (n : Nat) : ∀ c ∈ natDigits n, c.isDigit = true :=
  natDigitsAux_digits (n + 1) n [] (by simp)

theorem natDigits_len {n k : Nat} (hn : n < 10 ^ k) (hk : 1 ≤ k) :
    (natDigits n).length ≤ k := by
  have := natDigitsAux_len (n + 1) k n [] hn hk
  simpa using this

theorem natDigitsAux_len_ge :
    ∀ (fuel n : Nat) (acc : List Char) (k : Nat), 10 ^ k ≤ n → n < 10 ^ fuel →
      k + 1 + acc.length ≤ (natDigitsAux fuel n acc).length := by
  intro fuel
  induction fuel with
  | zero =>
    intro n acc k hk hf
    have h1 : 1 ≤ 10 ^ k := Nat.one_le_pow _ _ (by omega)
    simp only [pow_zero] at hf
    omega
  | succ g ih =>
    intro n acc k hk hf
    simp only [natDigitsAux]
    split_ifs with h10
    · have hk0 : k = 0 := by
        by_contra hne
        have h10k : 10 ≤ 10 ^ k := by
          calc (10 : Nat) = 10 ^ 1 := (pow_one 10).symm
          _ ≤ 10 ^ k := Nat.pow_le_pow_right (by omega) (by omega)
        omega
      subst hk0
      simp only [List.length_cons]
      omega
    · have hdiv : n / 10 < 10 ^ g := by
        rw [Nat.div_lt_iff_lt_mul (by omega)]
        calc n < 10 ^ (g + 1) := hf
        _ = 10 ^ g * 10 := by rw [pow_succ]
      cases k with
      | zero =>
        have hrec := ih (n / 10) (Nat.digitChar (n % 10) :: acc) 0
          (by simp only [pow_zero]; omega) hdiv
        simp only [List.length_cons] at hrec ⊢
        omega
      | succ k' =>
        have hk' : 10 ^ k' ≤ n / 10 := by
          rw [Nat.le_div_iff_mul_le (by omega)]
          calc 10 ^ k' * 10 = 10 ^ (k' + 1) := (pow_succ 10 k').symm
          _ ≤ n := hk
        have hrec := ih (n / 10) (Nat.digitChar (n % 10) :: acc) k' hk' hdiv
        simp only [List.length_cons] at hrec ⊢
        omega

theorem natDigits_len_ge {n k : Nat} (hn : 10 ^ k ≤ n) :
    k + 1 ≤ (natDigits n).length := by
  have hf : n < 10 ^ (n + 1) := by
    have h1 : n < 10 ^ n := Nat.lt_pow_self (by omega) n
    have h2 : (10 : Nat) ^ n ≤ 10 ^ (n + 1) := Nat.pow_le_pow_right (by omega) (by omega)
    omega
  have h := natDigitsAux_len_ge (n + 1) n [] k hn hf
  simpa using h

theorem pad_exact (w n : Nat) (hn : n < 10 ^ w) (hw : 1 ≤ w) :
    (pad w n).length = w ∧ ∀ c ∈ pad w n, c.isDigit = true := by
  have hlen := natDigits_len hn hw
  constructor
  · unfold pad
    rw [List.length_append, List.length_replicate]
    omega
  · intro c hc
    unfold pad at hc
    rcases List.mem_append.mp hc with h | h
    · rw [List.eq_of_mem_replicate h]
      decide
    · exact natDigits_digits n c h

theorem consumeN_pad (n w : Nat) (hn : n < 10 ^ w) (hw : 1 ≤ w)
    (rest : List Char) :
    consumeN CCls.digit w (pad w n ++ rest) = some rest := by
  obtain ⟨hl, hc⟩ := pad_exact w n hn hw
  have hx := consumeN_exact (k := CCls.digit) (pad w n) rest
    (fun c hcm => hc c hcm)
  rw [hl] at hx
  exact hx


/-- The formatted text of one token is accepted by that token's
compiled items, whatever follows.  The `%Y` case needs the year to
have four digits, because the platform does not zero-pad `%Y` while
the compiled fragment demands exactly four digits. -/
theorem tokFmt_match (t : DateTime) (hv : t.Valid) (hyr : 1000 ≤ t.year)
    (tok : Tok) (hWF : tok.WF)
    (rest : List Char) :
    rest ∈ matchSeq (itemsTok tok) (tokFmt tok t ++ rest) := by
  obtain ⟨hy1, hy2, hm1, hm2, hd1, hd2, hh, hmin, hsec, hwd, hj1, hj2, hu, hw,
    hms, hiy, hiw1, hiw2⟩ := hv
  have hp2 : (10 : Nat) ^ 2 = 100 := by norm_num
  have hp3 : (10 : Nat) ^ 3 = 1000 := by norm_num
  have hp4 : (10 : Nat) ^ 4 = 10000 := by norm_num
  cases tok with
  | lit c => simp [matchSeq, matchItem, tokFmt, itemsTok]
  | unk c => simp [matchSeq, matchItem, tokFmt, itemsTok]
  | ph q =>
    cases q
    case Y =>
      show rest ∈ matchSeq [RItem.cls .digit 4] (natDigits t.year ++ rest)
      have hlen : (natDigits t.year).length = 4 := by
        have hle : (natDigits t.year).length ≤ 4 :=
          natDigits_len (by rw [hp4]; omega) (by omega)
        have hge : 3 + 1 ≤ (natDigits t.year).length :=
          natDigits_len_ge (by rw [hp3]; omega)
        omega
      have h4 : consumeN CCls.digit 4 (natDigits t.year ++ rest) = some rest := by
        have hx := consumeN_exact (k := CCls.digit) (natDigits t.year) rest
          (fun c hcm => natDigits_digits t.year c hcm)
        rw [hlen] at hx
        exact hx
      simp [matchSeq, matchItem, h4]
    case y =>
      show rest ∈ matchSeq [RItem.cls .digit 2] (pad 2 (t.year % 100) ++ rest)
      have h2 := consumeN_pad (t.year % 100) 2 (by rw [hp2]; omega) (by omega) rest
      simp [matchSeq, matchItem, h2]
    case m =>
      show rest ∈ matchSeq [RItem.cls .digit 2] (pad 2 t.month ++ rest)
      have h2 := consumeN_pad t.month 2 (by rw [hp2]; omega) (by omega) rest
      simp [matchSeq, matchItem, h2]
    case d =>
      show rest ∈ matchSeq [RItem.cls .digit 2] (pad 2 t.day ++ rest)
      have h2 := consumeN_pad t.day 2 (by rw [hp2]; omega) (by omega) rest
      simp [matchSeq, matchItem, h2]
    case H =>
      show rest ∈ matchSeq [RItem.cls .digit 2] (pad 2 t.hour ++ rest)
      have h2 := consumeN_pad t.hour 2 (by rw [hp2]; omega) (by omega) rest
      simp [matchSeq, matchItem, h2]
    case I =>
      show rest ∈ matchSeq [RItem.cls .digit 2] (pad 2 (hour12 t.hour) ++ rest)
      have hb : hour12 t.hour < 100 := by
        unfold hour12
        split
        · omega
        · omega
      have h2 := consumeN_pad (hour12 t.hour) 2 (by rw [hp2]; omega) (by omega) rest
      simp [matchSeq, matchItem, h2]
    case M =>
      show rest ∈ matchSeq [RItem.cls .digit 2] (pad 2 t.minute ++ rest)
      have h2 := consumeN_pad t.minute 2 (by rw [hp2]; omega) (by omega) rest
      simp [matchSeq, matchItem, h2]
    case S =>
      show rest ∈ matchSeq [RItem.cls .digit 2] (pad 2 t.second ++ rest)
      have h2 := consumeN_pad t.second 2 (by rw [hp2]; omega) (by omega) rest
      simp [matchSeq, matchItem, h2]
    case j =>
      show rest ∈ matchSeq [RItem.cls .digit 3] (pad 3 t.yday ++ rest)
      have h3 := consumeN_pad t.yday 3 (by rw [hp3]; omega) (by omega) rest
      simp [matchSeq, matchItem, h3]
    case U =>
      show rest ∈ matchSeq [RItem.cls .digit 2] (pad 2 t.weekU ++ rest)
      have h2 := consumeN_pad t.weekU 2 (by rw [hp2]; omega) (by omega) rest
      simp [matchSeq, matchItem, h2]
    case W =>
      show rest ∈ matchSeq [RItem.cls .digit 2] (pad 2 t.weekW ++ rest)
      have h2 := consumeN_pad t.weekW 2 (by rw [hp2]; omega) (by omega) rest
      simp [matchSeq, matchItem, h2]
    case a =>
      show rest ∈ matchSeq [RItem.cls .word 3] (dayAbbr t.weekday ++ rest)
      generalize t.weekday = w at hwd
      interval_cases w
      · have h3 : consumeN CCls.word 3 (dayAbbr 0 ++ rest) = some rest :=
          consumeN_exact (k := CCls.word) "Mon".data rest (by decide)
        simp [matchSeq, matchItem, h3]
      · have h3 : consumeN CCls.word 3 (dayAbbr 1 ++ rest) = some rest :=
          consumeN_exact (k := CCls.word) "Tue".data rest (by decide)
        simp [matchSeq, matchItem, h3]
      · have h3 : consumeN CCls.word 3 (dayAbbr 2 ++ rest) = some rest :=
          consumeN_exact (k := CCls.word) "Wed".data rest (by decide)
        simp [matchSeq, matchItem, h3]
      · have h3 : consumeN CCls.word 3 (dayAbbr 3 ++ rest) = some rest :=
          consumeN_exact (k := CCls.word) "Thu".data rest (by decide)
        simp [matchSeq, matchItem, h3]
      · have h3 : consumeN CCls.word 3 (dayAbbr 4 ++ rest) = some rest :=
          consumeN_exact (k := CCls.word) "Fri".data rest (by decide)
        simp [matchSeq, matchItem, h3]
      · have h3 : consumeN CCls.word 3 (dayAbbr 5 ++ rest) = some rest :=
          consumeN_exact (k := CCls.word) "Sat".data rest (by decide)
        simp [matchSeq, matchItem, h3]
      · have h3 : consumeN CCls.word 3 (dayAbbr 6 ++ rest) = some rest :=
          consumeN_exact (k := CCls.word) "Sun".data rest (by decide)
        simp [matchSeq, matchItem, h3]
    case A =>
      show rest ∈ matchSeq [RItem.clsPlus .word] (dayFull t.weekday ++ rest)
      generalize t.weekday = w at hwd
      have hplus : rest ∈ plusSuffixes CCls.word (dayFull w ++ rest) := by
        interval_cases w <;>
          exact mem_plusSuffixes _ rest (by decide) (by decide)
      simp [matchSeq, matchItem]
      exact hplus
    case b =>
      show rest ∈ matchSeq [RItem.cls .word 3] (monAbbr t.month ++ rest)
      generalize t.month = m at hm1 hm2
      interval_cases m
      · have h3 : consumeN CCls.word 3 (monAbbr 1 ++ rest) = some rest :=
          consumeN_exact (k := CCls.word) "Jan".data rest (by decide)
        simp [matchSeq, matchItem, h3]
      · have h3 : consumeN CCls.word 3 (monAbbr 2 ++ rest) = some rest :=
          consumeN_exact (k := CCls.word) "Feb".data rest (by decide)
        simp [matchSeq, matchItem, h3]
      · have h3 : consumeN CCls.word 3 (monAbbr 3 ++ rest) = some rest :=
          consumeN_exact (k := CCls.word) "Mar".data rest (by decide)
        simp [matchSeq, matchItem, h3]
      · have h3 : consumeN CCls.word 3 (monAbbr 4 ++ rest) = some rest :=
          consumeN_exact (k := CCls.word) "Apr".data rest (by decide)
        simp [matchSeq, matchItem, h3]
      · have h3 : consumeN CCls.word 3 (monAbbr 5 ++ rest) = some rest :=
          consumeN_exact (k := CCls.word) "May".data rest (by decide)
        simp [matchSeq, matchItem, h3]
      · have h3 : consumeN CCls.word 3 (monAbbr 6 ++ rest) = some rest :=
          consumeN_exact (k := CCls.word) "Jun".data rest (by decide)
        simp [matchSeq, matchItem, h3]
      · have h3 : consumeN CCls.word 3 (monAbbr 7 ++ rest) = some rest :=
          consumeN_exact (k := CCls.word) "Jul".data rest (by decide)
        simp [matchSeq, matchItem, h3]
      · have h3 : consumeN CCls.word 3 (monAbbr 8 ++ rest) = some rest :=
          consumeN_exact (k := CCls.word) "Aug".data rest (by decide)
        simp [matchSeq, matchItem, h3]
      · have h3 : consumeN CCls.word 3 (monAbbr 9 ++ rest) = some rest :=
          consumeN_exact (k := CCls.word) "Sep".data rest (by decide)
        simp [matchSeq, matchItem, h3]
      · have h3 : consumeN CCls.word 3 (monAbbr 10 ++ rest) = some rest :=
          consumeN_exact (k := CCls.word) "Oct".data rest (by decide)
        simp [matchSeq, matchItem, h3]
      · have h3 : consumeN CCls.word 3 (monAbbr 11 ++ rest) = some rest :=
          consumeN_exact (k := CCls.word) "Nov".data rest (by decide)
        simp [matchSeq, matchItem, h3]
      · have h3 : consumeN CCls.word 3 (monAbbr 12 ++ rest) = some rest :=
          consumeN_exact (k := CCls.word) "Dec".data rest (by decide)
        simp [matchSeq, matchItem, h3]
    case B =>
      show rest ∈ matchSeq [RItem.clsPlus .word] (monFull t.month ++ rest)
      generalize t.month = m at hm1 hm2
      have hplus : rest ∈ plusSuffixes CCls.word (monFull m ++ rest) := by
        interval_cases m <;>
          exact mem_plusSuffixes _ rest (by decide) (by decide)
      simp [matchSeq, matchItem]
      exact hplus
    case p =>
      by_cases hh12 : t.hour < 12
      · show rest ∈ matchSeq [RItem.altLits [['A', 'M'], ['P', 'M']]]
            ((if t.hour < 12 then "AM".data else "PM".data) ++ rest)
        rw [if_pos hh12]
        show rest ∈ matchSeq [RItem.altLits [['A', 'M'], ['P', 'M']]]
            ('A' :: 'M' :: rest)
        simp [matchSeq, matchItem, List.isPrefixOf]
      · show rest ∈ matchSeq [RItem.altLits [['A', 'M'], ['P', 'M']]]
            ((if t.hour < 12 then "AM".data else "PM".data) ++ rest)
        rw [if_neg hh12]
        show rest ∈ matchSeq [RItem.altLits [['A', 'M'], ['P', 'M']]]
            ('P' :: 'M' :: rest)
        simp [matchSeq, matchItem, List.isPrefixOf]

/-- The fully formatted name is accepted by the full item list (for
instants whose year has four digits). -/
theorem flat_fmt_match (t : DateTime) (hv : t.Valid) (hyr : 1000 ≤ t.year)
    (P : List Tok)
    (hWF : ∀ tok ∈ P, tok.WF) :
    [] ∈ matchSeq (P.flatMap itemsTok) (P.flatMap (fun tok => tokFmt tok t)) := by
  induction P with
  | nil => simp [matchSeq]
  | cons tok P' ih =>
    rw [List.flatMap_cons, List.flatMap_cons]
    exact mem_matchSeq_append
      (tokFmt_match t hv hyr tok (hWF tok (List.mem_cons_self _ _)) _)
      (ih (fun x hx => hWF x (List.mem_cons_of_mem _ hx)))


/-- **C1** (amended): for every pattern built from literal text and
recognized placeholders only, and every valid instant whose year is at
least 1000, the filename produced by formatting the pattern at that
instant is accepted by the matcher compiled from the same pattern.
The year bound cannot be dropped: the platform's `%Y` is unpadded
while the compiled `\d{4}` fragment demands four digits — see
`roundtrip_fails_before_year_1000`. -/
theorem format_matches_roundtrip (P : List Tok) (t : DateTime)
    (hWF : ∀ tok ∈ P, tok.WF) (hplain : ∀ tok ∈ P, tok.plain)
    (hv : t.Valid) (hyr : 1000 ≤ t.year) :
    matchesName (renderPattern P) (getCurrentFilename (renderPattern P) t) = true := by
  unfold matchesName
  rw [compiledItems_render P hWF]
  show pyFullMatch (P.flatMap itemsTok) (getCurrentFilename (renderPattern P) t) = true
  have hfmt : getCurrentFilename (renderPattern P) t =
      P.flatMap (fun tok => tokFmt tok t) := strfRun_render t P hWF
  rw [hfmt]
  unfold pyFullMatch
  rw [List.any_eq_true]
  exact ⟨[], flat_fmt_match t hv hyr P hWF, by simp⟩

/-- Witness for `format_matches_roundtrip`: the pattern
`app-%Y-%m-%d.log` formatted at 2024-01-15 14:30:05 round-trips
through its own matcher. -/
theorem format_matches_roundtrip_witness :
    (let P : List Tok := [.lit 'a', .lit 'p', .lit 'p', .lit '-', .ph .Y,
      .lit '-', .ph .m, .lit '-', .ph .d, .lit '.', .lit 'l', .lit 'o', .lit 'g'];
    let t : DateTime := ⟨2024, 1, 15, 14, 30, 5, 0, 15, 2, 2, 123456, 2024, 3, 1705329005⟩;
    renderPattern P = "app-%Y-%m-%d.log".data ∧
    getCurrentFilename (renderPattern P) t = "app-2024-01-15.log".data ∧
    matchesName (renderPattern P) (getCurrentFilename (renderPattern P) t) = true) :=
  ⟨by decide, by decide,
    format_matches_roundtrip _ _ (by decide) (by decide) (by decide) (by decide)⟩

/-- **C1** counterexample: at the valid instant 0005-11-03 07:04:09
the platform's unpadded `%Y` formats `app-%Y-%m-%d.log` to
`app-5-11-03.log`, which the `\d{4}` fragment of the compiled matcher
rejects — the round-trip claimed for every valid instant fails for
years below 1000. -/
theorem roundtrip_fails_before_year_1000 :
    (let P : List Tok := [.lit 'a', .lit 'p', .lit 'p', .lit '-', .ph .Y,
      .lit '-', .ph .m, .lit '-', .ph .d, .lit '.', .lit 'l', .lit 'o', .lit 'g'];
    let t : DateTime := ⟨5, 11, 3, 7, 4, 9, 3, 307, 44, 44, 12, 5, 44, -61982902551⟩;
    renderPattern P = "app-%Y-%m-%d.log".data ∧
    (∀ tok ∈ P, tok.WF) ∧ (∀ tok ∈ P, tok.plain) ∧ t.Valid ∧
    getCurrentFilename (renderPattern P) t = "app-5-11-03.log".data ∧
    matchesName (renderPattern P) (getCurrentFilename (renderPattern P) t) = false) :=
  ⟨by decide, by decide, by decide, by decide, by decide, by decide⟩


/-! ### Matcher inversion: matched items consume a prefix -/

theorem matchSeq_split {is1 is2 : List RItem} {s r : List Char}
    (h : r ∈ matchSeq (is1 ++ is2) s) :
    ∃ mid, mid ∈ matchSeq is1 s ∧ r ∈ matchSeq is2 mid := by
  induction is1 generalizing s with
  | nil => exact ⟨s, by simp [matchSeq], by simpa using h⟩
  | cons i is1' ih =>
    simp only [List.cons_append, matchSeq, List.mem_flatMap] at h
    obtain ⟨u, hu, hr⟩ := h
    obtain ⟨mid, hmid, hr2⟩ := ih hr
    refine ⟨mid, ?_, hr2⟩
    simp only [matchSeq, List.mem_flatMap]
    exact ⟨u, hu, hmid⟩

theorem consumeN_suffix {k : CCls} :
    ∀ (n : Nat) (s r : List Char), consumeN k n s = some r → ∃ u, s = u ++ r := by
  intro n
  induction n with
  | zero =>
    intro s r h
    rw [show consumeN k 0 s = some s from rfl, Option.some_inj] at h
    exact ⟨[], by rw [h]; rfl⟩
  | succ m ih =>
    intro s r h
    cases s with
    | nil =>
      have h' : (none : Option (List Char)) = some r := h
      exact Option.noConfusion h'
    | cons a s' =>
      by_cases hin : inCls k a
      · have h' : consumeN k m s' = some r := by simpa [consumeN, hin] using h
        obtain ⟨u, hu⟩ := ih s' r h'
        exact ⟨a :: u, by rw [hu]; rfl⟩
      · have h' : (none : Option (List Char)) = some r := by
          simpa [consumeN, hin] using h
        exact Option.noConfusion h'

theorem plusSuffixes_suffix {k : CCls} :
    ∀ (s r : List Char), r ∈ plusSuffixes k s → ∃ u, s = u ++ r := by
  intro s
  induction s with
  | nil =>
    intro r h
    simp [plusSuffixes] at h
  | cons a s' ih =>
    intro r h
    by_cases hin : inCls k a
    · rw [show plusSuffixes k (a :: s') =
          if inCls k a then s' :: plusSuffixes k s' else [] from rfl,
        if_pos hin] at h
      rcases List.mem_cons.mp h with h | h
      · exact ⟨[a], by rw [h]; rfl⟩
      · obtain ⟨u, hu⟩ := ih r h
        exact ⟨a :: u, by rw [hu]; rfl⟩
    · rw [show plusSuffixes k (a :: s') =
          if inCls k a then s' :: plusSuffixes k s' else [] from rfl,
        if_neg hin] at h
      simp at h

theorem matchItem_lit_inv {c : Char} {s r : List Char}
    (h : r ∈ matchItem (RItem.lit c) s) : s = c :: r := by
  cases s with
  | nil => simp [matchItem] at h
  | cons c2 rest =>
    by_cases hc : c2 = c
    · have hr : r = rest := by simpa [matchItem, hc] using h
      rw [hr, hc]
    · simp [matchItem, hc] at h

theorem matchItem_suffix {i : RItem} {s r : List Char}
    (h : r ∈ matchItem i s) : ∃ u, s = u ++ r := by
  cases i with
  | lit c => exact ⟨[c], matchItem_lit_inv h⟩
  | cls k n =>
    cases hcn : consumeN k n s with
    | none =>
      rw [show matchItem (RItem.cls k n) s =
          (match consumeN k n s with
            | some x => [x]
            | none => []) from rfl, hcn] at h
      simp at h
    | some x =>
      rw [show matchItem (RItem.cls k n) s =
          (match consumeN k n s with
            | some x => [x]
            | none => []) from rfl, hcn] at h
      have hr : r = x := by simpa using h
      subst hr
      exact consumeN_suffix n s r hcn
  | clsPlus k => exact plusSuffixes_suffix s r h
  | altLits alts =>
    simp only [matchItem, List.mem_filterMap] at h
    obtain ⟨a, _, ha⟩ := h
    split_ifs at ha with hpre
    rw [Option.some_inj] at ha
    subst ha
    exact ⟨s.take a.length, (List.take_append_drop _ _).symm⟩

theorem matchSeq_suffix {is : List RItem} :
    ∀ {s r : List Char}, r ∈ matchSeq is s → ∃ u, s = u ++ r := by
  induction is with
  | nil =>
    intro s r h
    have hr : r = s := by simpa [matchSeq] using h
    exact ⟨[], by rw [hr]; rfl⟩
  | cons i is' ih =>
    intro s r h
    simp only [matchSeq, List.mem_flatMap] at h
    obtain ⟨u1, hu1, hr⟩ := h
    obtain ⟨a, ha⟩ := matchItem_suffix hu1
    obtain ⟨b, hb⟩ := ih hr
    exact ⟨a ++ b, by rw [ha, hb, List.append_assoc]⟩

theorem matchSeq_two_lits {a b : Char} {s r : List Char}
    (h : r ∈ matchSeq [RItem.lit a, RItem.lit b] s) : s = a :: b :: r := by
  simp only [matchSeq, List.mem_flatMap] at h
  obtain ⟨u, hu, hr⟩ := h
  obtain ⟨u2, hu2, hr2⟩ := hr
  have hrr : r = u2 := by simpa [matchSeq] using hr2
  subst hrr
  rw [matchItem_lit_inv hu, matchItem_lit_inv hu2]

/-- **C7** (amended): a `%x` directive outside the recognized
placeholder set — and also outside the set of directives, flags and
modifiers the platform `strftime` gives meaning to, e.g. `%q` — is
passed through literally by filename generation and compiled to the
two literal characters in the matcher, so any name the matcher accepts
contains the literal directive text verbatim.  The platform condition
cannot be dropped: a directive unknown to the handler's table but
known to the platform is expanded during generation — see
`unrecognized_directive_platform_expanded`. -/
theorem unrecognized_directive_literal (P1 P2 : List Tok) (c : Char)
    (t : DateTime) (name : List Char)
    (hWF1 : ∀ tok ∈ P1, tok.WF) (hWF2 : ∀ tok ∈ P2, tok.WF)
    (hc1 : c ≠ '%') (hc2 : c ∉ recognizedChars) (hc3 : c ∉ strfActiveChars) :
    getCurrentFilename (renderPattern (P1 ++ [Tok.unk c] ++ P2)) t =
      getCurrentFilename (renderPattern P1) t ++
        '%' :: c :: getCurrentFilename (renderPattern P2) t ∧
    compiledItems (renderPattern (P1 ++ [Tok.unk c] ++ P2)) =
      some (P1.flatMap itemsTok ++
        ([RItem.lit '%', RItem.lit c] ++ P2.flatMap itemsTok)) ∧
    (matchesName (renderPattern (P1 ++ [Tok.unk c] ++ P2)) name = true →
      ∃ u v, name = u ++ '%' :: c :: v) := by
  have hWF : ∀ tok ∈ P1 ++ [Tok.unk c] ++ P2, tok.WF := by
    intro tok htok
    rcases List.mem_append.mp htok with h | h
    · rcases List.mem_append.mp h with h' | h'
      · exact hWF1 tok h'
      · have : tok = Tok.unk c := by simpa using h'
        subst this
        exact ⟨hc1, hc2, hc3⟩
    · exact hWF2 tok h
  have hitems : compiledItems (renderPattern (P1 ++ [Tok.unk c] ++ P2)) =
      some (P1.flatMap itemsTok ++
        ([RItem.lit '%', RItem.lit c] ++ P2.flatMap itemsTok)) := by
    rw [compiledItems_render _ hWF]
    simp [List.flatMap_append, itemsTok]
  refine ⟨?_, hitems, ?_⟩
  · show strfRun t (renderPattern (P1 ++ [Tok.unk c] ++ P2)) = _
    rw [strfRun_render t _ hWF]
    show _ = strfRun t (renderPattern P1) ++ '%' :: c :: strfRun t (renderPattern P2)
    rw [strfRun_render t P1 hWF1, strfRun_render t P2 hWF2]
    simp [List.flatMap_append, tokFmt]
  · intro hm
    unfold matchesName at hm
    rw [hitems] at hm
    have hm2 : pyFullMatch (P1.flatMap itemsTok ++
        ([RItem.lit '%', RItem.lit c] ++ P2.flatMap itemsTok)) name = true := hm
    unfold pyFullMatch at hm2
    obtain ⟨r0, hr0mem, _⟩ := List.any_eq_true.mp hm2
    obtain ⟨mid1, hmid1, hrest⟩ := matchSeq_split hr0mem
    obtain ⟨mid2, hmid2, _⟩ := matchSeq_split hrest
    obtain ⟨u, hu⟩ := matchSeq_suffix hmid1
    have hsplit2 : mid1 = '%' :: c :: mid2 := matchSeq_two_lits hmid2
    exact ⟨u, mid2, by rw [hu, hsplit2]⟩

/-- Witness for `unrecognized_directive_literal`: pattern `log-%q.txt`
at a concrete instant formats to `log-%q.txt` and any accepted name
contains the literal `%q`. -/
theorem unrecognized_directive_literal_witness :
    (let P1 : List Tok := [.lit 'l', .lit 'o', .lit 'g', .lit '-'];
    let P2 : List Tok := [.lit '.', .lit 't', .lit 'x', .lit 't'];
    let t : DateTime := ⟨2024, 1, 15, 14, 30, 5, 0, 15, 2, 2, 123456, 2024, 3, 1705329005⟩;
    getCurrentFilename (renderPattern (P1 ++ [Tok.unk 'q'] ++ P2)) t =
      "log-%q.txt".data ∧
    (∃ u v, "log-%q.txt".data = u ++ '%' :: 'q' :: v)) := by
  refine ⟨by decide, ?_⟩
  exact (unrecognized_directive_literal [Tok.lit 'l', Tok.lit 'o', Tok.lit 'g',
    Tok.lit '-'] [Tok.lit '.', Tok.lit 't', Tok.lit 'x', Tok.lit 't'] 'q'
    ⟨2024, 1, 15, 14, 30, 5, 0, 15, 2, 2, 123456, 2024, 3, 1705329005⟩ "log-%q.txt".data
    (by decide) (by decide) (by decide) (by decide) (by decide)).2.2 (by decide)

/-- **C7** counterexample: `%F` is outside the handler's recognized
placeholder set, yet generation does not pass it through — the
platform `strftime` expands it to `%Y-%m-%d` — and the matcher, which
does keep `%F` literal, then rejects the very name the handler
generates. -/
theorem unrecognized_directive_platform_expanded :
    (let t : DateTime := ⟨2024, 1, 15, 14, 30, 5, 0, 15, 2, 2, 123456, 2024, 3, 1705329005⟩;
    'F' ∉ recognizedChars ∧ 'F' ≠ '%' ∧
    getCurrentFilename "log-%F.txt".data t = "log-2024-01-15.txt".data ∧
    '%' ∉ getCurrentFilename "log-%F.txt".data t ∧
    matchesName "log-%F.txt".data (getCurrentFilename "log-%F.txt".data t) = false) :=
  ⟨by decide, by decide, by decide, by decide, by decide⟩


/-! ### Emit error handling -/

theorem emitM_exc_none (env : EmitEnv) (st : HandlerState) :
    (emitM env st).1 = none := by
  rcases hb : emitBody env st with ⟨exc, st1, reps, wrote⟩
  unfold emitM
  rw [hb]
  cases exc <;> rfl

theorem openCurrentFileM_benign (env : EmitEnv) (st : HandlerState)
    (h1 : env.mkdirResult = none) (h2 : env.openResult = none) :
    (openCurrentFileM env st).1 = none ∧
    (openCurrentFileM env st).2.1.stream =
      some (getCurrentFilename st.filenamePattern env.now) := by
  unfold openCurrentFileM
  rw [h1, h2]
  exact ⟨rfl, rfl⟩

theorem emitWrite_benign (env : EmitEnv) (st : HandlerState) (reps : List Report)
    (h1 : env.mkdirResult = none) (h2 : env.openResult = none)
    (h3 : env.writeResult = none) :
    (emitWrite env st reps).1 = none ∧ (emitWrite env st reps).2.2.2 = true := by
  unfold emitWrite
  cases hs : st.stream with
  | some f =>
    rw [h3]
    exact ⟨rfl, rfl⟩
  | none =>
    rcases ho : openCurrentFileM env st with ⟨exc, st1, rep1⟩
    have hb := openCurrentFileM_benign env st h1 h2
    rw [ho] at hb
    obtain ⟨hexc, hstream⟩ := hb
    simp only at hexc hstream
    subst hexc
    dsimp only
    rw [hstream, h3]
    exact ⟨rfl, rfl⟩

theorem emitBody_benign (env : EmitEnv) (st : HandlerState)
    (h1 : env.mkdirResult = none) (h2 : env.openResult = none)
    (h3 : env.writeResult = none) :
    (emitBody env st).1 = none ∧ (emitBody env st).2.2.2 = true := by
  unfold emitBody
  split
  · rcases ho : openCurrentFileM env st with ⟨exc, st1, rep1⟩
    have hb := openCurrentFileM_benign env st h1 h2
    rw [ho] at hb
    obtain ⟨hexc, -⟩ := hb
    simp only at hexc
    subst hexc
    dsimp only
    exact emitWrite_benign env st1 _ h1 h2 h3
  · exact emitWrite_benign env st [] h1 h2 h3

/-- **C4**: `emit` never lets an exception escape, for any record,
state and platform behaviour (failed `mkdir`, failed `open`, failed
`write`, failed cleanup, pre-held or unopenable lock file).  The same
holds for the lock-wrapped concurrent `emit`.  If the `try` body did
raise, `handleError` is invoked for the record, and with a benign
environment any state still produces a successful write — subsequent
emits keep attempting normal operation. -/
theorem emit_never_raises (env : EmitEnv) (st : HandlerState) :
    (emitM env st).1 = none ∧
    (concurrentEmitM env st).1 = none ∧
    ((emitBody env st).1.isSome = true →
      Report.emitFailed ∈ (emitM env st).2.2.1) ∧
    (env.mkdirResult = none → env.openResult = none → env.writeResult = none →
      (emitM env st).2.2.2 = true) := by
  refine ⟨emitM_exc_none env st, ?_, ?_, ?_⟩
  · unfold concurrentEmitM
    rcases he : emitM env (acquireLockM env st) with ⟨exc2, st2, reps2, wrote2⟩
    have hn := emitM_exc_none env (acquireLockM env st)
    rw [he] at hn
    simp only at hn
    subst hn
    rfl

  · intro hsome
    rcases hb : emitBody env st with ⟨exc, st1, reps, wrote⟩
    rw [hb] at hsome
    simp only [Option.isSome] at hsome
    unfold emitM
    rw [hb]
    cases exc with
    | none => exact Bool.noConfusion hsome
    | some e => simp
  · intro h1 h2 h3
    obtain ⟨hexc, hwrote⟩ := emitBody_benign env st h1 h2 h3
    rcases hb : emitBody env st with ⟨exc, st1, reps, wrote⟩
    rw [hb] at hexc hwrote
    simp only at hexc hwrote
    subst hexc
    unfold emitM
    rw [hb]
    exact hwrote

/-- Witness for `emit_never_raises`: an environment in which the log
file cannot be opened and the lock is pre-held by another process; an
emit from a fresh handler state raises nothing, and the benign
environment then writes. -/
theorem emit_never_raises_witness :
    (let t : DateTime := ⟨2024, 1, 15, 14, 30, 5, 0, 15, 2, 2, 123456, 2024, 3, 1705329005⟩;
    let badEnv : EmitEnv :=
      ⟨t, none, some PyExc.otherError, none, fun _ => none, none,
        none, some PyExc.osError⟩;
    let goodEnv : EmitEnv :=
      ⟨t, none, none, none, fun _ => none, none, none, none⟩;
    let st : HandlerState := initialConcurrentState "app-%Y.log".data 2;
    (emitM badEnv st).1 = none ∧
    (concurrentEmitM badEnv st).1 = none ∧
    (emitM goodEnv st).2.2.2 = true) :=
  ⟨(emit_never_raises _ _).1, (emit_never_raises _ _).2.1,
    (emit_never_raises _ _).2.2.2 rfl rfl rfl⟩

/-! ### The lock path -/

theorem openCurrentFileM_lock (env : EmitEnv) (st : HandlerState) :
    (openCurrentFileM env st).2.1.lockFilename = st.lockFilename := by
  unfold openCurrentFileM closeStream
  cases env.mkdirResult with
  | some e => rfl
  | none =>
    cases env.openResult with
    | some e => rfl
    | none => rfl

theorem emitWrite_lock (env : EmitEnv) (st : HandlerState) (reps : List Report) :
    (emitWrite env st reps).2.1.lockFilename = st.lockFilename := by
  unfold emitWrite
  cases hs : st.stream with
  | some f => cases env.writeResult <;> rfl
  | none =>
    rcases ho : openCurrentFileM env st with ⟨exc, st1, rep1⟩
    have hl := openCurrentFileM_lock env st
    rw [ho] at hl
    simp only at hl
    cases exc with
    | some e => exact hl
    | none =>
      dsimp only
      cases st1.stream with
      | none => exact hl
      | some f =>
        cases env.writeResult with
        | some e => exact hl
        | none => exact hl

theorem emitBody_lock (env : EmitEnv) (st : HandlerState) :
    (emitBody env st).2.1.lockFilename = st.lockFilename := by
  unfold emitBody
  split
  · rcases ho : openCurrentFileM env st with ⟨exc, st1, rep1⟩
    have hl := openCurrentFileM_lock env st
    rw [ho] at hl
    simp only at hl
    cases exc with
    | some e => exact hl
    | none =>
      dsimp only
      rw [emitWrite_lock]
      exact hl
  · exact emitWrite_lock env st []

theorem emitM_lock (env : EmitEnv) (st : HandlerState) :
    (emitM env st).2.1.lockFilename = st.lockFilename := by
  rcases hb : emitBody env st with ⟨exc, st1, reps, wrote⟩
  have hl := emitBody_lock env st
  rw [hb] at hl
  simp only at hl
  unfold emitM
  rw [hb]
  cases exc <;> exact hl

/-- Counterexample to **C8** as stated: the code derives the lock name
from `Path(pattern).stem`, the final component minus its last suffix —
for `app-%Y-%m-%d.log` that stem is `app-%Y-%m-%d`, which still
contains placeholder text, so the lock path is not built from a
placeholder-free stem portion. -/
theorem lock_stem_contains_placeholder :
    pyStem "app-%Y-%m-%d.log".data = "app-%Y-%m-%d".data ∧
    '%' ∈ pyStem "app-%Y-%m-%d.log".data ∧
    pyStem "app-%Y-%m-%d.log".data ++ ".lock".data = "app-%Y-%m-%d.lock".data := by
  exact ⟨by decide, by decide, by decide⟩

/-- **C8** (amended): the lock path is computed once, from the
pattern's final path component with its last suffix removed — that
portion is used literally and may itself contain placeholder text — as
`<stem>.lock`; it is one fixed path, identical across all instants and
environments an emit runs in, never rotating with the log file. -/
theorem lock_path_fixed (pattern : List Char) (bc : Int) (env env2 : EmitEnv) :
    (concurrentEmitM env (initialConcurrentState pattern bc)).2.1.lockFilename =
      some (pyStem pattern ++ ".lock".data) ∧
    (concurrentEmitM env (initialConcurrentState pattern bc)).2.1.lockFilename =
      (concurrentEmitM env2 (initialConcurrentState pattern bc)).2.1.lockFilename := by
  have hfix : ∀ (e : EmitEnv),
      (concurrentEmitM e (initialConcurrentState pattern bc)).2.1.lockFilename =
        some (pyStem pattern ++ ".lock".data) := by
    intro e
    unfold concurrentEmitM
    rcases he : emitM e (acquireLockM e (initialConcurrentState pattern bc))
      with ⟨exc, st2, reps, wrote⟩
    have hl := emitM_lock e (acquireLockM e (initialConcurrentState pattern bc))
    rw [he] at hl
    simp only at hl
    show (releaseLockM st2).lockFilename = _
    show st2.lockFilename = _
    rw [hl]
    have hacq : (acquireLockM e (initialConcurrentState pattern bc)).lockFilename =
        (setLockFilename (initialConcurrentState pattern bc)).lockFilename := by
      unfold acquireLockM
      cases e.lockOpenResult <;> rfl
    rw [hacq]
    unfold setLockFilename
    rw [if_pos (show (initialConcurrentState pattern bc).lockFilename = none from rfl)]
    rfl
  exact ⟨hfix env, (hfix env).trans (hfix env2).symm⟩

/-! ### Construction versus directory creation -/

/-- **C10**: constructing with `delay=False` opens the current
instant's file inside the constructor without creating directories, so
a missing directory portion makes construction raise and leaves the
filesystem untouched; the emit-time `_open_current_file` creates the
directory (recursively) and its open then succeeds. -/
theorem init_opens_without_mkdir (pattern : List Char) (now : DateTime)
    (fs : List (List Char))
    (hdot : dirName (getCurrentFilename pattern now) ≠ ['.'])
    (hmiss : fs.contains (dirName (getCurrentFilename pattern now)) = false) :
    (dateBasedInit pattern false now fs).1.1 = some PyExc.osError ∧
    (dateBasedInit pattern false now fs).2 = fs ∧
    (openCurrentFileFS pattern now fs).1 = some (getCurrentFilename pattern now) ∧
    (openCurrentFileFS pattern now fs).2 =
      dirName (getCurrentFilename pattern now) :: fs := by
  have hopen : openAppend fs (getCurrentFilename pattern now) = some PyExc.osError := by
    unfold openAppend
    rw [if_neg]
    push_neg
    refine ⟨hdot, ?_⟩
    rw [hmiss]
    exact Bool.noConfusion
  have hcond : ¬(dirName (getCurrentFilename pattern now) = ['.'] ∨
      fs.contains (dirName (getCurrentFilename pattern now)) = true) := by
    push_neg
    refine ⟨hdot, ?_⟩
    rw [hmiss]
    exact Bool.noConfusion
  refine ⟨?_, ?_, ?_, ?_⟩
  · show (match openAppend fs (getCurrentFilename pattern now) with
      | none => ((none, some (getCurrentFilename pattern now)), fs)
      | some e => ((some e, none), fs)).1.1 = some PyExc.osError
    rw [hopen]
  · show (match openAppend fs (getCurrentFilename pattern now) with
      | none => ((none, some (getCurrentFilename pattern now)), fs)
      | some e => ((some e, none), fs)).2 = fs
    rw [hopen]
  · have hmk : mkdirParents (dirName (getCurrentFilename pattern now)) fs =
        dirName (getCurrentFilename pattern now) :: fs := by
      unfold mkdirParents
      rw [if_neg hcond]
    have h2 : openAppend (dirName (getCurrentFilename pattern now) :: fs)
        (getCurrentFilename pattern now) = none := by
      unfold openAppend
      rw [if_pos]
      right
      exact List.elem_iff.mpr (List.mem_cons_self _ _)
    unfold openCurrentFileFS
    rw [hmk, h2]
  · have hmk : mkdirParents (dirName (getCurrentFilename pattern now)) fs =
        dirName (getCurrentFilename pattern now) :: fs := by
      unfold mkdirParents
      rw [if_neg hcond]
    have h2 : openAppend (dirName (getCurrentFilename pattern now) :: fs)
        (getCurrentFilename pattern now) = none := by
      unfold openAppend
      rw [if_pos]
      right
      exact List.elem_iff.mpr (List.mem_cons_self _ _)
    unfold openCurrentFileFS
    rw [hmk, h2]

/-- Witness for `init_opens_without_mkdir`: pattern `logs/app-%Y.log`
on an empty filesystem — construction with `delay=False` raises,
`_open_current_file` creates `logs` and opens the file. -/
theorem init_opens_without_mkdir_witness :
    (let pattern := "logs/app-%Y.log".data;
    let t : DateTime := ⟨2024, 1, 15, 14, 30, 5, 0, 15, 2, 2, 123456, 2024, 3, 1705329005⟩;
    (dateBasedInit pattern false t []).1.1 = some PyExc.osError ∧
    (openCurrentFileFS pattern t []).1 = some "logs/app-2024.log".data ∧
    (openCurrentFileFS pattern t []).2 = ["logs".data]) := by
  refine ⟨(init_opens_without_mkdir _ _ _ (by decide) (by decide)).1, ?_, ?_⟩
  · exact (init_opens_without_mkdir "logs/app-%Y.log".data
      ⟨2024, 1, 15, 14, 30, 5, 0, 15, 2, 2, 123456, 2024, 3, 1705329005⟩ [] (by decide) (by decide)).2.2.1
  · exact (init_opens_without_mkdir "logs/app-%Y.log".data
      ⟨2024, 1, 15, 14, 30, 5, 0, 15, 2, 2, 123456, 2024, 3, 1705329005⟩ [] (by decide) (by decide)).2.2.2

end LoggingExt
